import Mathlib

/-!
Verification development for the MovieLibrarian title-resolution engine.

The Python sources `lib/naming.py` and `lib/omdb_client.py` are embedded
shallowly: strings are `List Char` (wrapped in `String` at the API),
Python regular expressions are realised by bespoke executable matchers,
network traffic of the OMDb resolver is modelled by an explicit oracle
`Net` together with a request log, and floats are modelled by `ℚ`.

Modelling conventions (ASCII model):
* Python `str.lower`, `str.strip`, the regex classes `\s`, `\w`, `\d`
  and case-insensitive matching are modelled on ASCII characters.
* `html.unescape` is modelled on numeric character references and the
  common named references; it is the identity on strings without `&`,
  which is the only fact the proofs below use.
-/

set_option maxHeartbeats 1000000
set_option maxRecDepth 8000

namespace MovieLib

/-- ASCII model of the Python whitespace class (`str.strip`, regex `\s`). -/
def isWs (c : Char) : Bool :=
  c = ' ' || c = '\t' || c = '\n' || c = '\r' || c = '\x0b' || c = '\x0c'

/-- Regex `\d` on ASCII. -/
def isDigitC (c : Char) : Bool := '0' ≤ c && c ≤ '9'

def isUpperC (c : Char) : Bool := 'A' ≤ c && c ≤ 'Z'

def isLowerC (c : Char) : Bool := 'a' ≤ c && c ≤ 'z'

def isAlphaC (c : Char) : Bool := isUpperC c || isLowerC c

def isAlnumC (c : Char) : Bool := isAlphaC c || isDigitC c

/-- Regex `\w` (ASCII model). -/
def isWordC (c : Char) : Bool := isAlnumC c || c = '_'

/-- ASCII model of Python `str.lower` on one character. -/
def lowerC (c : Char) : Char :=
  if isUpperC c then Char.ofNat (c.toNat + 32) else c

def upperC (c : Char) : Char :=
  if isLowerC c then Char.ofNat (c.toNat - 32) else c

def lowerL (l : List Char) : List Char := l.map lowerC

/-- Python `s.lower()`. -/
def pyLower (s : String) : String := ⟨lowerL s.data⟩

/-- Drop matching characters from the end of a list. -/
def dropEndWhile (p : Char → Bool) (l : List Char) : List Char :=
  (l.reverse.dropWhile p).reverse

/-- Python `s.strip(chars)`: drop characters satisfying `p` from both ends. -/
def stripSet (p : Char → Bool) (l : List Char) : List Char :=
  dropEndWhile p (l.dropWhile p)

/-- Python `s.strip()` (ASCII whitespace model). -/
def trimWs (l : List Char) : List Char := stripSet isWs l

/-- Python substring test (`w in t`). -/
def isSubstrL (w t : List Char) : Bool :=
  (List.range (t.length + 1)).any (fun i => w.isPrefixOf (t.drop i))

/-- Maximal runs of characters satisfying `p` (regex `re.findall` for a
single positive character class), dropping everything else. -/
def runsOfAux (p : Char → Bool) (cur : List Char) : List Char → List (List Char)
  | [] => if cur = [] then [] else [cur.reverse]
  | c :: cs =>
    if p c then runsOfAux p (c :: cur) cs
    else if cur = [] then runsOfAux p [] cs
    else cur.reverse :: runsOfAux p [] cs

def runsOf (p : Char → Bool) (l : List Char) : List (List Char) := runsOfAux p [] l

/-- `re.findall(r'\w+', ·)`: the maximal word-character runs. -/
def wordRuns (l : List Char) : List (List Char) := runsOf isWordC l

/-- Python `s.split()` (split on whitespace, dropping empty parts). -/
def splitWsTokens (l : List Char) : List (List Char) := runsOf (fun c => !isWs c) l

/-- Replace every maximal `\w+` run satisfying `m` by `repl`, other
characters untouched.  This realises `re.sub` for a pattern of the shape
`\b(alt1|alt2|...)\b` whose alternatives consist only of word characters:
such a pattern matches exactly the maximal word runs equal to an
alternative. -/
def subRunsAux (m : List Char → Bool) (repl : List Char) (cur : List Char) :
    List Char → List Char
  | [] =>
    if cur = [] then [] else if m cur.reverse then repl else cur.reverse
  | c :: cs =>
    if isWordC c then subRunsAux m repl (c :: cur) cs
    else
      (if cur = [] then [] else if m cur.reverse then repl else cur.reverse) ++
        c :: subRunsAux m repl [] cs

def subWordRuns (m : List Char → Bool) (repl : List Char) (l : List Char) : List Char :=
  subRunsAux m repl [] l

/-- `re.sub(r'\s+', ' ', ·)`: collapse whitespace runs to single spaces. -/
def collapseWsAux (prevWs : Bool) : List Char → List Char
  | [] => []
  | c :: cs =>
    if isWs c then (if prevWs then [] else [' ']) ++ collapseWsAux true cs
    else c :: collapseWsAux false cs

def collapseWsL (l : List Char) : List Char := collapseWsAux false l

/-- `re.sub(r'[._]+', ' ', ·)`: collapse runs of dots/underscores to one space. -/
def dotUndAux (prevRun : Bool) : List Char → List Char
  | [] => []
  | c :: cs =>
    if c = '.' || c = '_' then (if prevRun then [] else [' ']) ++ dotUndAux true cs
    else c :: dotUndAux false cs

def dotUndRuns (l : List Char) : List Char := dotUndAux false l

/-- `re.sub(r'[_\-]{2,}', ' ', ·)`: replace runs (length at least 2) of
underscores/hyphens by a single space; length-1 runs are kept. -/
def punctRunFlush (cur : List Char) : List Char :=
  if 2 ≤ cur.length then [' '] else cur.reverse

def punctRunsAux (cur : List Char) : List Char → List Char
  | [] => punctRunFlush cur
  | c :: cs =>
    if c = '_' || c = '-' then punctRunsAux (c :: cur) cs
    else punctRunFlush cur ++ c :: punctRunsAux [] cs

def punctRunsSub (l : List Char) : List Char := punctRunsAux [] l

/-- `re.sub(r'<[^>]+>', ' ', ·)`.  The argument `pending` records, once a
`<` has been seen, the (reversed) characters read since; an unterminated
or empty `<>` group is emitted literally, matching the regex. -/
def stripTagsAux : Option (List Char) → List Char → List Char
  | none, [] => []
  | some acc, [] => '<' :: acc.reverse
  | none, c :: cs =>
    if c = '<' then stripTagsAux (some []) cs else c :: stripTagsAux none cs
  | some acc, c :: cs =>
    if c = '>' then
      if acc = [] then '<' :: '>' :: stripTagsAux none cs
      else ' ' :: stripTagsAux none cs
    else stripTagsAux (some (c :: acc)) cs

def stripTags (l : List Char) : List Char := stripTagsAux none l

/-- Named HTML entities recognised by the `html.unescape` model
(the common subset; semicolon-less forms as in the html5 table). -/
def namedEnts : List (List Char × Char) :=
  [("amp;".data, '&'), ("lt;".data, '<'), ("gt;".data, '>'),
   ("quot;".data, '"'), ("apos;".data, '\''), ("nbsp;".data, Char.ofNat 160),
   ("amp".data, '&'), ("lt".data, '<'), ("gt".data, '>'),
   ("quot".data, '"'), ("nbsp".data, Char.ofNat 160)]

def hexVal (c : Char) : Option Nat :=
  if isDigitC c then some (c.toNat - 48)
  else if 'a' ≤ c && c ≤ 'f' then some (c.toNat - 87)
  else if 'A' ≤ c && c ≤ 'F' then some (c.toNat - 55)
  else none

def natFromDigits (l : List Char) : Nat :=
  l.foldl (fun n c => n * 10 + (c.toNat - 48)) 0

def natFromHexDigits (l : List Char) : Nat :=
  l.foldl (fun n c => n * 16 + (hexVal c).getD 0) 0

def charOfCode (n : Nat) : Char :=
  if n.isValidChar then Char.ofNat n else Char.ofNat 0xFFFD

/-- Try to read one character reference right after a `&`; returns the
decoded character and the rest. -/
def tryEnt (cs : List Char) : Option (Char × List Char) :=
  match cs with
  | '#' :: rest =>
    match rest with
    | x :: rest2 =>
      if x = 'x' || x = 'X' then
        let ds := rest2.takeWhile (fun c => (hexVal c).isSome)
        if ds = [] then none
        else
          let after := rest2.dropWhile (fun c => (hexVal c).isSome)
          let after := match after with | ';' :: t => t | t => t
          some (charOfCode (natFromHexDigits ds), after)
      else
        let ds := rest.takeWhile isDigitC
        if ds = [] then none
        else
          let after := rest.dropWhile isDigitC
          let after := match after with | ';' :: t => t | t => t
          some (charOfCode (natFromDigits ds), after)
    | [] => none
  | _ =>
    namedEnts.findSome? fun (name, ch) =>
      if name.isPrefixOf cs then some (ch, cs.drop name.length) else none

def unescapeFuel : Nat → List Char → List Char
  | 0, l => l
  | _ + 1, [] => []
  | n + 1, c :: cs =>
    if c = '&' then
      match tryEnt cs with
      | some (ch, rest) => ch :: unescapeFuel n rest
      | none => '&' :: unescapeFuel n cs
    else c :: unescapeFuel n cs

/-- Model of Python `html.unescape` (see file header). -/
def unescapeHtml (l : List Char) : List Char := unescapeFuel l.length l

/-- The container extensions of `naming.py`, as lowercase suffixes with a dot. -/
def extDotSuffixes : List (List Char) :=
  [".mkv".data, ".m2ts".data, ".mpls".data, ".iso".data]

def extWordSuffixes : List (List Char) :=
  ["mkv".data, "m2ts".data, "mpls".data, "iso".data]

def endsWithL (suf l : List Char) : Bool := suf.reverse.isPrefixOf l.reverse

/-- `re.sub(r'(?i)\.(mkv|m2ts|mpls|iso)\s*$', '', ·)`: the anchored match
(trailing whitespace included, case-insensitively) is removed if present. -/
def extDotSub (l : List Char) : List Char :=
  let t := dropEndWhile isWs l
  match extDotSuffixes.find? (fun suf => endsWithL suf (lowerL t)) with
  | some suf => t.take (t.length - suf.length)
  | none => l

/-- `re.sub(r'(?i)\s+(mkv|m2ts|mpls|iso)\s*$', '', ·)`: a trailing bare
extension word preceded by whitespace is removed together with that
whitespace run. -/
def extWordSub (l : List Char) : List Char :=
  let t := dropEndWhile isWs l
  match extWordSuffixes.find? (fun suf => endsWithL suf (lowerL t)) with
  | some suf =>
    let u := t.take (t.length - suf.length)
    if u ≠ [] && isWs (u.getLastD ' ') then dropEndWhile isWs u else l
  | none => l

/-- A maximal word run matching `[tT]\d{1,3}` (the per-title marker). -/
def isTMarkerRun (r : List Char) : Bool :=
  match r with
  | c :: ds => (c = 't' || c = 'T') && ds ≠ [] && ds.length ≤ 3 && ds.all isDigitC
  | [] => false

/-- A maximal word run matching `[Ss]\d{1,2}[Ee]\d{1,2}`. -/
def isSERun (r : List Char) : Bool :=
  match r with
  | c :: rest =>
    (c = 's' || c = 'S') &&
    (let ds := rest.takeWhile isDigitC
     ds ≠ [] && ds.length ≤ 2 &&
     (match rest.dropWhile isDigitC with
      | e :: rest2 =>
        (e = 'e' || e = 'E') && rest2 ≠ [] && rest2.length ≤ 2 && rest2.all isDigitC
      | [] => false))
  | [] => false

/-- A maximal word run matching
`\d{3,4}p|720p|1080p|2160p|HD|SD|x264|x265|HEVC` (case-insensitively;
the three literal resolutions are instances of `\d{3,4}p`). -/
def isResolutionRun (r : List Char) : Bool :=
  let lr := lowerL r
  lr = "hd".data || lr = "sd".data || lr = "x264".data || lr = "x265".data ||
  lr = "hevc".data ||
  (match lr.reverse with
   | 'p' :: ds => ds ≠ [] && ds.length ≤ 4 && 3 ≤ ds.length && ds.all isDigitC
   | _ => false)

def markupWords : List (List Char) :=
  ["b".data, "br".data, "i".data, "span".data, "div".data]

def isMarkupRun (r : List Char) : Bool := markupWords.contains (lowerL r)

/-- `re.split(r'\s+-\s+', s, maxsplit=1)[0]`: cut the string at the first
hyphen that has whitespace on both sides, dropping the whole whitespace
run before it (the greedy leftmost `\s+` of the match). -/
def dashSplitFirst (l : List Char) : List Char :=
  match (List.range l.length).find? (fun j =>
      l.get? j = some '-' &&
      1 ≤ j && ((l.get? (j - 1)).getD 'x' |> isWs) &&
      ((l.get? (j + 1)).getD 'x' |> isWs)) with
  | some j =>
    let pre := l.take j
    pre.take (pre.length - (pre.reverse.takeWhile isWs).length)
  | none => l

/-- Fullmatch of `^(?:b|br|i|span|div)(?:\s+(?:b|br|i|span|div))*$`
(case-insensitive): a nonempty string with no leading/trailing whitespace
all of whose whitespace-separated tokens are markup words. -/
def markupOnlyFull (l : List Char) : Bool :=
  match l with
  | [] => false
  | c :: _ =>
    !isWs c && !isWs (l.getLastD ' ') &&
    (splitWsTokens l).all isMarkupRun

/-- Embedding of `naming.clean_title_string` (list level). -/
def cleanL (s0 : List Char) : List Char :=
  if s0 = [] then [] else
  let s := stripSet (fun c => c = '"') (trimWs s0)
  let s := stripTags s
  let s := unescapeHtml s
  let s := dotUndRuns s
  let s := s.map (fun c => if c = '_' then ' ' else c)
  let s := trimWs s
  let s := subWordRuns isMarkupRun [' '] s
  let s := trimWs (collapseWsL s)
  if s = [] || isSubstrL "title information".data (lowerL s) ||
      isSubstrL "source information".data (lowerL s) then [] else
  let s := extDotSub s
  let s := extWordSub s
  let s := subWordRuns isTMarkerRun [] s
  let s := subWordRuns isSERun [] s
  let s := subWordRuns isResolutionRun [] s
  let s := dashSplitFirst s
  let s := punctRunsSub s
  let s := trimWs (collapseWsL s)
  let s := stripSet (fun c => c = ' ' || c = '_' || c = '-') s
  if markupOnlyFull s then [] else s

def clean_title_string (s : String) : String := ⟨cleanL s.data⟩

/-- Search of the hardware pattern
`(bd-?re|bd-r|bdrom|hl-dt-st|wh\d+[a-z0-9]*|dvd|usb|matshita|lite-on|plextor)`
on an already lowercased string (the source matches with `re.IGNORECASE`).
Each alternative except `wh\d+[a-z0-9]*` is a literal, hence a substring
test; `wh\d+[a-z0-9]*` holds exactly when some `wh` is followed by a digit
(the trailing `[a-z0-9]*` can match empty). -/
def hwPat (t : List Char) : Bool :=
  isSubstrL "bdre".data t || isSubstrL "bd-re".data t ||
  isSubstrL "bd-r".data t || isSubstrL "bdrom".data t ||
  isSubstrL "hl-dt-st".data t ||
  (List.range t.length).any (fun i =>
    t.get? i = some 'w' && t.get? (i + 1) = some 'h' &&
    ((t.get? (i + 2)).getD 'x' |> isDigitC)) ||
  isSubstrL "dvd".data t || isSubstrL "usb".data t ||
  isSubstrL "matshita".data t || isSubstrL "lite-on".data t ||
  isSubstrL "plextor".data t

def hwLow (t : List Char) : Bool := 40 < t.length || hwPat t

/-- Embedding of `naming.is_hardware_label`.  Every rule of the source is
case-insensitive, so the predicate is evaluated on the lowercased string. -/
def is_hardware_label (s : String) : Bool :=
  if s.data = [] then false else hwLow (lowerL s.data)

/-- Fullmatch of `\s*(?:DRV|CINFO|TINFO)[:\s]*\d+\s*` on a lowercased
string (the source matches case-insensitively). -/
def drvTagFull (t : List Char) : Bool :=
  let t1 := t.dropWhile isWs
  ["drv".data, "cinfo".data, "tinfo".data].any (fun w =>
    w.isPrefixOf t1 &&
    (let t2 := (t1.drop w.length).dropWhile (fun c => c = ':' || isWs c)
     let ds := t2.takeWhile isDigitC
     ds ≠ [] && (t2.dropWhile isDigitC).all isWs))

/-- Fullmatch of `\d{1,2}:\d{2}(?::\d{2})?`. -/
def timeFull (t : List Char) : Bool :=
  let d1 := t.takeWhile isDigitC
  (d1.length = 1 || d1.length = 2) &&
  (match t.dropWhile isDigitC with
   | ':' :: rest =>
     let d2 := rest.takeWhile isDigitC
     d2.length = 2 &&
     (match rest.dropWhile isDigitC with
      | [] => true
      | ':' :: r2 => (r2.takeWhile isDigitC).length = 2 && r2.dropWhile isDigitC = []
      | _ => false)
   | _ => false)

/-- Fullmatch of `[\d,\s]{5,}`. -/
def numWsFull (t : List Char) : Bool :=
  5 ≤ t.length && t.all (fun c => isDigitC c || c = ',' || isWs c)

/-- Fullmatch of `[\d\(\)\-,\s]+`. -/
def numPunctFull (t : List Char) : Bool :=
  t ≠ [] && t.all (fun c => isDigitC c || c = '(' || c = ')' || c = '-' || c = ',' || isWs c)

/-- Search of `\b<w>\b` for a literal word `w` of word characters. -/
def wordBoundedSearch (w t : List Char) : Bool :=
  (List.range (t.length + 1)).any (fun i =>
    w.isPrefixOf (t.drop i) &&
    (i = 0 || !isWordC ((t.get? (i - 1)).getD ' ')) &&
    (match t.get? (i + w.length) with
     | some c => !isWordC c
     | none => true))

/-- Nondeterministic matchers (lists of possible remainders) for the one
genuinely backtracking pattern of the classifier. -/
abbrev PM : Type := List Char → List (List Char)

def pmChar (p : Char → Bool) : PM := fun l =>
  match l with
  | c :: cs => if p c then [cs] else []
  | [] => []

def pmSeq (a b : PM) : PM := fun l => (a l).flatMap b

def pmOpt (a : PM) : PM := fun l => l :: a l

/-- All ways to consume one or more leading digits. -/
def pmDigits1 : PM := fun l =>
  let r := l.takeWhile isDigitC
  (List.range r.length).map (fun k => l.drop (k + 1))

def pmManyFuel (a : PM) : Nat → PM
  | 0 => fun l => [l]
  | n + 1 => fun l => l :: (a l).flatMap (pmManyFuel a n)

def pmMany1Fuel (a : PM) (n : Nat) : PM := fun l => (a l).flatMap (pmManyFuel a n)

/-- Match of `\(?\d+(?:,\d+)*\)?(?:[,\s]*\d+-\d+)+` starting at the head
of the list (any remainder may be left over, as in `re.search`). -/
def chapterListAt (l : List Char) : Bool :=
  let n := l.length
  let sep := pmManyFuel (pmChar (fun c => c = ',' || isWs c)) n
  let ddash := pmSeq pmDigits1 (pmSeq (pmChar (· = '-')) pmDigits1)
  let tail := pmMany1Fuel (pmSeq sep ddash) n
  let headP := pmSeq (pmOpt (pmChar (· = '(')))
    (pmSeq pmDigits1 (pmSeq (pmManyFuel (pmSeq (pmChar (· = ',')) pmDigits1) n)
      (pmOpt (pmChar (· = ')')))))
  (pmSeq headP tail) l ≠ []

/-- Search of the chapter-list pattern: a match may start anywhere. -/
def chapterListSearch (t : List Char) : Bool :=
  (List.range (t.length + 1)).any (fun i => chapterListAt (t.drop i))

/-- Search of `\b\d+\s*chapter` on a lowercased string. -/
def digitChapterSearch (t : List Char) : Bool :=
  (List.range t.length).any (fun i =>
    ((t.get? i).getD ' ' |> isDigitC) &&
    (i = 0 || !isWordC ((t.get? (i - 1)).getD ' ')) &&
    "chapter".data.isPrefixOf (((t.drop i).dropWhile isDigitC).dropWhile isWs))

/-- Search of `\b\d+(\.\d+)?\s*(gb|mb)\b` on a lowercased string. -/
def sizeUnitSearch (t : List Char) : Bool :=
  (List.range t.length).any (fun i =>
    ((t.get? i).getD ' ' |> isDigitC) &&
    (i = 0 || !isWordC ((t.get? (i - 1)).getD ' ')) &&
    (let afterInt := (t.drop i).dropWhile isDigitC
     let cands :=
       afterInt ::
       (match afterInt with
        | '.' :: r =>
          if (r.takeWhile isDigitC) ≠ [] then [r.dropWhile isDigitC] else []
        | _ => [])
     cands.any (fun c =>
       let rest := c.dropWhile isWs
       ["gb".data, "mb".data].any (fun u =>
         u.isPrefixOf rest &&
         (match rest.get? u.length with
          | some d => !isWordC d
          | none => true)))))

/-- Drop a single trailing newline (the semantics of `$` in a pattern used
with `re.match`, as in the short-code rule). -/
def dropTrailNl (t : List Char) : List Char :=
  match t.reverse with
  | '\n' :: r => r.reverse
  | _ => t

/-- `re.match(r'^[A-Z0-9_\-]{1,6}$', s, re.IGNORECASE)` together with the
`'_' in s` conjunct, on the lowercased string. -/
def shortCodeTest (t : List Char) : Bool :=
  let m := dropTrailNl t
  m ≠ [] && m.length ≤ 6 &&
  m.all (fun c => isLowerC c || isDigitC c || c = '_' || c = '-') &&
  t.contains '_'

/-- Fullmatch of `[\dA-Za-z]{1,3}` (classes cover both cases, so the
lowercased string is equivalent). -/
def shortAlnumFull (t : List Char) : Bool :=
  t ≠ [] && t.length ≤ 3 && t.all isAlnumC

/-- The disjunction of the noise rules of `naming.is_noisy_title`,
evaluated on the lowercased input: every rule of the source either uses
`s.lower()` explicitly, matches with `re.IGNORECASE`, or mentions only
characters fixed by lowering, so lowering first is faithful. -/
def isNoisyLow (t : List Char) : Bool :=
  drvTagFull t ||
  timeFull (trimWs t) ||
  numWsFull (trimWs t) ||
  wordBoundedSearch "chapter".data t || chapterListSearch t ||
  numPunctFull (trimWs t) ||
  t.contains '<' || t.contains '>' ||
  isSubstrL "&lt;".data t || isSubstrL "&gt;".data t ||
  isSubstrL "title information".data t || isSubstrL "source information".data t ||
  isSubstrL "chapter".data t || isSubstrL "chapter(s)".data t ||
  isSubstrL "gb".data t || isSubstrL "mb".data t ||
  digitChapterSearch t ||
  sizeUnitSearch t ||
  extDotSuffixes.any (fun suf => endsWithL suf (dropTrailNl t)) ||
  shortCodeTest t ||
  shortAlnumFull t ||
  hwLow t

/-- Embedding of `naming.is_noisy_title`. -/
def is_noisy_title (s : String) : Bool :=
  if s.data = [] then true else isNoisyLow (lowerL s.data)

/-- Python `str.splitlines` (modelled on `\n`, `\r\n` and `\r`). -/
def splitLinesAux (cur : List Char) : List Char → List (List Char)
  | [] => if cur = [] then [] else [cur.reverse]
  | '\r' :: '\n' :: cs => cur.reverse :: splitLinesAux [] cs
  | '\n' :: cs => cur.reverse :: splitLinesAux [] cs
  | '\r' :: cs => cur.reverse :: splitLinesAux [] cs
  | c :: cs => splitLinesAux (c :: cur) cs

def splitLinesL (l : List Char) : List (List Char) := splitLinesAux [] l

/-- Python `s.split(sep, maxsplit)` for a one-character separator. -/
def splitMaxAux (sep : Char) (n : Nat) (cur : List Char) : List Char → List (List Char)
  | [] => [cur.reverse]
  | c :: cs =>
    if c = sep && 0 < n then cur.reverse :: splitMaxAux sep (n - 1) [] cs
    else splitMaxAux sep n (c :: cur) cs

def splitMax (sep : Char) (n : Nat) (l : List Char) : List (List Char) :=
  splitMaxAux sep n [] l

/-- A parsed-title record (the dicts produced by the makemkv parser that
`choose_title` consumes): the `title` and `seconds` entries. -/
structure ParsedTitle where
  title : Option String
  seconds : Int
deriving DecidableEq

/-- Embedding of `naming.gather_raw_title_candidates`. -/
def lineCand (line : List Char) : Option (String × String) :=
  if "CINFO".data.isPrefixOf line then
    match splitMax ',' 2 line with
    | [_, _, v] =>
      let v' := stripSet (fun c => c = '"') (trimWs v)
      if v' ≠ [] then some ("cinfo", ⟨v'⟩) else none
    | _ => none
  else if "TINFO".data.isPrefixOf line then
    match splitMax ',' 3 line with
    | [_, _, _, v] =>
      let v' := stripSet (fun c => c = '"') (trimWs v)
      if v' ≠ [] then some ("tinfo", ⟨v'⟩) else none
    | _ => none
  else none

def gather_raw_title_candidates (raw_info_text : String) (drive_label : String)
    (parsed_titles : List ParsedTitle) : List (String × String) :=
  (if drive_label ≠ "" then [("label", drive_label)] else []) ++
  (splitLinesL raw_info_text.data).filterMap lineCand ++
  parsed_titles.filterMap (fun t =>
    match t.title with
    | some v => if v ≠ "" then some ("tinfo_parsed", v) else none
    | none => none)

/-- Source weight of `score_and_prioritise_candidates`. -/
def srcScore (src : String) : Int :=
  if src = "cinfo" then 40
  else if src = "label" then 8
  else if src = "tinfo_parsed" then 12
  else if src = "tinfo" then 4
  else 1

/-- Search of `[a-z][A-Z]|[A-Z][a-z]` (mixed-case adjacency). -/
def mixedCase : List Char → Bool
  | [] => false
  | [_] => false
  | a :: b :: rest =>
    ((isLowerC a && isUpperC b) || (isUpperC a && isLowerC b)) || mixedCase (b :: rest)

/-- `seen[key] = seen.get(key, 0) + score` on an insertion-ordered map. -/
def addScore (m : List (String × Int)) (k : String) (v : Int) : List (String × Int) :=
  if m.any (fun p => p.1 = k) then
    m.map (fun p => if p.1 = k then (p.1, p.2 + v) else p)
  else m ++ [(k, v)]

/-- Stable descending insertion by score (`sorted(..., key=score,
reverse=True)`: equal scores keep insertion order). -/
def insertScoreDesc (x : String × Int) : List (String × Int) → List (String × Int)
  | [] => [x]
  | y :: ys => if x.2 ≥ y.2 then x :: y :: ys else y :: insertScoreDesc x ys

def sortScoredDesc (l : List (String × Int)) : List (String × Int) :=
  l.foldr insertScoreDesc []

/-- One accumulation step of `score_and_prioritise_candidates`. -/
def scoreStep (m : List (String × Int)) (sv : String × String) :
    List (String × Int) :=
  let cand := clean_title_string sv.2
  if cand = "" || is_noisy_title cand then m
  else
    let key : String := ⟨trimWs cand.data⟩
    let score := srcScore sv.1 + (if 4 ≤ key.data.length then 2 else 0) +
      (if mixedCase sv.2.data then 1 else 0)
    addScore m key score

/-- Embedding of `naming.score_and_prioritise_candidates`. -/
def score_and_prioritise_candidates (cands : List (String × String)) :
    List (String × Int) :=
  sortScoredDesc (cands.foldl scoreStep [])

/-- Parsing states of the csv field scanner. -/
inductive CsvMode
  | start
  | unq
  | quoted
  | postq
deriving DecidableEq

/-- Model of `csv.reader` restricted to what `pick_cinfo_title` and the
resolver use: the flattened list of fields of all rows, in order, for the
default dialect (delimiter `,`, quotechar `"`, doubled quotes inside a
quoted field produce a literal quote, text after a closing quote is
appended verbatim, a blank line yields no field). -/
def csvAux (mode : CsvMode) (cur : List Char) (rowHas : Bool) :
    List Char → List (List Char)
  | [] =>
    if mode = CsvMode.start && !rowHas then [] else [cur.reverse]
  | c :: cs =>
    match mode with
    | CsvMode.start =>
      if c = '"' then csvAux CsvMode.quoted cur rowHas cs
      else if c = ',' then cur.reverse :: csvAux CsvMode.start [] true cs
      else if c = '\n' || c = '\r' then
        if rowHas then cur.reverse :: csvAux CsvMode.start [] false cs
        else csvAux CsvMode.start [] false cs
      else csvAux CsvMode.unq (c :: cur) rowHas cs
    | CsvMode.unq =>
      if c = ',' then cur.reverse :: csvAux CsvMode.start [] true cs
      else if c = '\n' || c = '\r' then cur.reverse :: csvAux CsvMode.start [] false cs
      else csvAux CsvMode.unq (c :: cur) rowHas cs
    | CsvMode.quoted =>
      if c = '"' then csvAux CsvMode.postq cur rowHas cs
      else csvAux CsvMode.quoted (c :: cur) rowHas cs
    | CsvMode.postq =>
      if c = '"' then csvAux CsvMode.quoted ('"' :: cur) rowHas cs
      else if c = ',' then cur.reverse :: csvAux CsvMode.start [] true cs
      else if c = '\n' || c = '\r' then cur.reverse :: csvAux CsvMode.start [] false cs
      else csvAux CsvMode.unq (c :: cur) rowHas cs

def csvFields (l : List Char) : List (List Char) := csvAux CsvMode.start [] false l

/-- `len(re.sub(r'[^A-Za-z]', '', s))`: the number of letters. -/
def alphaCount (l : List Char) : Nat := (l.filter isAlphaC).length

/-- Fullmatch of `\s*[A-Za-z]:?\s*` (drive-letter-shaped field). -/
def isDriveLetterField (l : List Char) : Bool :=
  match l.dropWhile isWs with
  | c :: rest =>
    isAlphaC c &&
    (match rest with
     | ':' :: rest2 => rest2.all isWs
     | _ => rest.all isWs)
  | [] => false

/-- ASCII model of Python `str.isupper`: at least one cased character and
no lowercase one. -/
def isUpperPy (w : List Char) : Bool := w.any isAlphaC && !(w.any isLowerC)

/-- ASCII model of Python `str.title`. -/
def titlePyAux (prevAlpha : Bool) : List Char → List Char
  | [] => []
  | c :: cs =>
    if isAlphaC c then (if prevAlpha then lowerC c else upperC c) :: titlePyAux true cs
    else c :: titlePyAux false cs

def titlePy (w : List Char) : List Char := titlePyAux false w

/-- `' '.join(w.title() if w.isupper() else w for w in parts)`. -/
def joinSpace : List (List Char) → List Char
  | [] => []
  | [w] => w
  | w :: ws => w ++ ' ' :: joinSpace ws

def normTitleToken (f : List Char) : List Char :=
  joinSpace ((splitWsTokens (f.map (fun c => if c = '_' then ' ' else c))).map
    (fun w => if isUpperPy w then titlePy w else w))

/-- Pass 1 of `pick_cinfo_title`: prefer underscored fields with letters. -/
def pass1Field (f : List Char) : Option String :=
  if f = [] then none
  else if isDriveLetterField f then none
  else if alphaCount f < 3 then none
  else if f.contains '_' && f.any isAlphaC then
    let cand := clean_title_string ⟨normTitleToken f⟩
    if cand ≠ "" && !is_noisy_title cand then some cand else none
  else none

/-- The ALL-CAPS sub-branch of `pick_cinfo_title`'s second pass:
preserve a single-word `[A-Z0-9]{3,}` token when cleaning only downcased
it. -/
def allCapsHitOf (token : List Char) : Option String :=
  if 3 ≤ token.length && token.all (fun c => isUpperC c || isDigitC c) then
    let cand := clean_title_string ⟨token⟩
    if cand ≠ "" && !is_noisy_title cand then
      if lowerL cand.data = lowerL token then some (⟨token⟩ : String) else some cand
    else none
  else none

/-- Pass 2 of `pick_cinfo_title`: ALL-CAPS tokens, then normalised fields. -/
def pass2Field (f : List Char) : Option String :=
  if f = [] then none
  else if drvTagFull (lowerL f) then none
  else if isDriveLetterField f then none
  else if alphaCount f < 3 then none
  else
    let token := trimWs f
    match allCapsHitOf token with
    | some r => some r
    | none =>
      let cand := clean_title_string ⟨normTitleToken token⟩
      if cand ≠ "" && !is_noisy_title cand then some cand else none

/-- Embedding of `naming.pick_cinfo_title`.  (The `try/except` around
`csv.reader` is dead in the model: the parser is total.) -/
def pick_cinfo_title (raw_info : String) : String :=
  if raw_info.data = [] then "" else
  let fields := (csvFields raw_info.data).map trimWs
  match fields.findSome? pass1Field with
  | some r => r
  | none =>
    match fields.findSome? pass2Field with
    | some r => r
    | none => ""

/-- Stable descending insertion by `seconds` (Python `sorted(...,
key=seconds, reverse=True)`). -/
def insertSecondsDesc (x : ParsedTitle) : List ParsedTitle → List ParsedTitle
  | [] => [x]
  | y :: ys => if x.seconds ≥ y.seconds then x :: y :: ys else y :: insertSecondsDesc x ys

def sortBySecondsDesc (l : List ParsedTitle) : List ParsedTitle :=
  l.foldr insertSecondsDesc []

/-- Stage 1 of `choose_title`: first clean, non-noisy parsed human title. -/
def firstParsedGood : List ParsedTitle → Option String
  | [] => none
  | t :: ts =>
    let tc := clean_title_string (t.title.getD "")
    if tc ≠ "" && !is_noisy_title tc then some tc else firstParsedGood ts

/-- Python `int(·)` of a digit string. -/
def natOfDigits (l : List Char) : Nat :=
  l.foldl (fun n c => n * 10 + (c.toNat - 48)) 0

/-- The scored pool of `choose_title`'s fallback stage with hardware
labels filtered out. -/
def fallbackPool (raw_info_text : String) (drive_label : String)
    (parsed_titles : List ParsedTitle) : List (String × Int) :=
  (score_and_prioritise_candidates
    (gather_raw_title_candidates raw_info_text drive_label parsed_titles)).filter
    (fun p => !is_hardware_label p.1)

/-- Embedding of `naming.choose_title`.  Interaction is modelled by two
extra inputs: `tty` is `sys.stdin and sys.stdin.isatty()`, and `userInput`
is the line returned by `input()` (`none` models an exception, which the
source swallows before falling through to the deterministic default). -/
def choose_title (raw_info_text : String) (drive_label : String)
    (parsed_titles : List ParsedTitle) (interactive : Bool)
    (tty : Bool) (userInput : Option String) : String :=
  match (if parsed_titles ≠ [] then firstParsedGood (sortBySecondsDesc parsed_titles)
         else none) with
  | some t => t
  | none =>
    let cinfo := pick_cinfo_title raw_info_text
    if cinfo ≠ "" then cinfo else
    match fallbackPool raw_info_text drive_label parsed_titles with
    | [] => ""
    | top :: rest =>
      if rest = [] || (match rest with
                       | r :: _ => top.2 ≥ r.2 + 8
                       | [] => false) then top.1
      else if interactive && tty then
        match userInput with
        | some inp =>
          let choice := trimWs inp.data
          if choice ≠ [] && choice.all isDigitC then
            let idx := natOfDigits choice
            if idx = 0 then ""
            else if 1 ≤ idx && idx ≤ min 6 (top :: rest).length then
              (((top :: rest).get? (idx - 1)).getD top).1
            else top.1
          else top.1
        | none => top.1
      else top.1

/-! ## Embedding of `lib/omdb_client.py`

Network traffic is modelled by an oracle `Net`: for every request and
every attempt index (how many physical attempts at the same request were
already made in this run) it either raises (`none`) or returns a decoded
JSON payload.  A run threads the list of physical attempts (`Log`).
The module-level `rapidfuzz` fallback is modelled in its `difflib`
branch (`SequenceMatcher.ratio`), the deterministic in-repo behaviour. -/

/-- A physical OMDb request: search (`s=`), exact title (`t=`), id (`i=`). -/
inductive Req
  | searchReq (term : String)
  | titleReq (t : String)
  | idReq (i : String)
deriving DecidableEq, Repr

/-- One item of a search payload; every field may be missing. -/
structure SearchItem where
  sTitle : Option String
  sYear : Option String
  sImdbID : Option String
deriving DecidableEq, Repr

/-- A decoded JSON payload.  `success` is `get("Response","False") ==
"True"`; the empty dict `{}` is `emptyResp`. -/
structure Resp where
  success : Bool
  rTitle : Option String
  rYear : Option String
  rImdbID : Option String
  rSearch : List SearchItem
deriving DecidableEq, Repr

def emptyResp : Resp := ⟨false, none, none, none, []⟩

abbrev Net : Type := Req → Nat → Option Resp

abbrev Log : Type := List Req

/-- One physical attempt (`urllib.request.urlopen` + `json.load`). -/
def netAttempt (net : Net) (r : Req) (log : Log) : Option Resp × Log :=
  (net r (log.count r), log ++ [r])

/-- `_search_omdb`: the body catches every exception and returns `{}`. -/
def searchOmdb (net : Net) (term apiKey : String) (log : Log) : Resp × Log :=
  let (o, log') := netAttempt net (Req.searchReq term) log
  (o.getD emptyResp, log')

/-- `_get_omdb_by_id`: same catch-all shape. -/
def getOmdbById (net : Net) (imdbId apiKey : String) (log : Log) : Resp × Log :=
  let (o, log') := netAttempt net (Req.idReq imdbId) log
  (o.getD emptyResp, log')

/-- `_get_omdb_by_title`: same catch-all shape. -/
def getOmdbByTitle (net : Net) (title apiKey : String) (log : Log) : Resp × Log :=
  let (o, log') := netAttempt net (Req.titleReq title) log
  (o.getD emptyResp, log')

/-- `_safe_url`: call a possibly-raising action with up to `retries`
retries and exponential backoff.  Besides the result it returns the list
of `time.sleep` durations (`backoff * 2 ^ attempt`, one per retried
failure).  The fuel is `retries + 1`, the number of attempts. -/
def safeUrlGo (g : Log → Option Resp × Log) (retries : Nat) (backoff : ℚ) :
    Nat → Nat → Log → Resp × List ℚ × Log
  | 0, _, log => (emptyResp, [], log)
  | fuel + 1, attempt, log =>
    match g log with
    | (some r, log') => (r, [], log')
    | (none, log') =>
      if attempt < retries then
        let (r, ds, log'') := safeUrlGo g retries backoff fuel (attempt + 1) log'
        (r, backoff * 2 ^ attempt :: ds, log'')
      else (emptyResp, [], log')

def safeUrl (g : Log → Option Resp × Log) (retries : Nat) (backoff : ℚ)
    (log : Log) : Resp × List ℚ × Log :=
  safeUrlGo g retries backoff (retries + 1) 0 log

/-- `_safe_url` applied to one of the catching helpers above: the wrapped
function never raises, so the wrapper returns after the first attempt
(`α` is the helper already partially applied). -/
def safeUrlOf (h : Log → Resp × Log) (log : Log) : Resp × List ℚ × Log :=
  safeUrl (fun l => let (r, l') := h l; (some r, l')) 2 (1 / 4) log

/-- difflib `SequenceMatcher`: length of the common run at two positions. -/
def commonLen : List Char → List Char → Nat
  | a :: as, b :: bs => if a = b then commonLen as bs + 1 else 0
  | _, _ => 0

/-- `find_longest_match` over the whole strings (no junk: both inputs in
this program are far below the autojunk threshold): the longest matching
block, ties resolved to the earliest start in `a`, then in `b`. -/
def bestBlock (a b : List Char) : Nat × Nat × Nat :=
  (List.range a.length).foldl (fun acc i =>
    (List.range b.length).foldl (fun acc2 j =>
      let k := commonLen (a.drop i) (b.drop j)
      if k > acc2.2.2 then (i, j, k) else acc2) acc) (0, 0, 0)

/-- Total size of the matching blocks (the `M` of `ratio`). -/
def matchTotalFuel : Nat → List Char → List Char → Nat
  | 0, _, _ => 0
  | fuel + 1, a, b =>
    let ijk := bestBlock a b
    if ijk.2.2 = 0 then 0
    else
      matchTotalFuel fuel (a.take ijk.1) (b.take ijk.2.1) + ijk.2.2 +
      matchTotalFuel fuel (a.drop (ijk.1 + ijk.2.2)) (b.drop (ijk.2.1 + ijk.2.2))

/-- difflib `SequenceMatcher(None, a, b).ratio()` as a rational. -/
def ratioL (a b : List Char) : ℚ :=
  if a.length + b.length = 0 then 1
  else (2 * matchTotalFuel (a.length + 1) a b : ℚ) / ((a.length + b.length : ℕ) : ℚ)

/-- `_score_string` in its `difflib` fallback branch. -/
def scoreString (a b : String) : ℚ :=
  if a = "" || b = "" then 0 else ratioL (lowerL a.data) (lowerL b.data)

/-- Subsequence scan of `_is_subsequence`: all of `sl` appears in order
inside `bl`. -/
def subseqScan : List Char → List Char → Bool
  | [], _ => true
  | _ :: _, [] => false
  | s :: ss, b :: bs => if b = s then subseqScan ss bs else subseqScan (s :: ss) bs

def alnumOf (l : List Char) : List Char := l.filter isAlnumC

/-- `_is_subsequence(small, big)`. -/
def isSubsequenceQ (small big : String) : Bool :=
  let si := lowerL (alnumOf small.data)
  let bi := lowerL (alnumOf big.data)
  !si.isEmpty && !bi.isEmpty && subseqScan si bi

def dedupL (l : List (List Char)) : List (List Char) :=
  l.foldl (fun acc x => if acc.contains x then acc else acc ++ [x]) []

/-- `len(q_tokens & t_tokens) / max(1, len(q_tokens | t_tokens))` with the
`if q_tokens_set or t_tokens` guard. -/
def tokenOverlapQ (query title : String) : ℚ :=
  let qks := dedupL (wordRuns (lowerL query.data))
  let tks := dedupL (wordRuns (lowerL title.data))
  if qks ≠ [] || tks ≠ [] then
    ((qks.filter (fun x => tks.contains x)).length : ℚ) /
      ((max 1 (qks ++ tks.filter (fun x => !qks.contains x)).length : ℕ) : ℚ)
  else 0

/-- `min(1.0, len(t_alnum) / max(1, len(q_alnum)))`, or `1.0` without
alphanumeric query characters. -/
def lengthRatioQ (query title : String) : ℚ :=
  let qAl := alnumOf query.data
  let tAl := alnumOf title.data
  if qAl ≠ [] then min 1 ((tAl.length : ℚ) / ((max 1 qAl.length : ℕ) : ℚ)) else 1

def subseqBonusQ (query title : String) : ℚ :=
  if isSubsequenceQ query title then 25 / 100 else 0

/-- The per-candidate score of the resolver's fuzzy stage. -/
def candScore (query title : String) : ℚ :=
  let base := scoreString query title
  let final := base * (50 / 100) + tokenOverlapQ query title * (25 / 100) +
    lengthRatioQ query title * (10 / 100) + subseqBonusQ query title
  max 0 (min 1 final)

def SUGGEST_THRESHOLD : ℚ := 35 / 100

abbrev RRes : Type := Option String × Option String × Option String × ℚ

def absentRes : RRes := (none, none, none, 0)

/-- `_try_exact`: `none` when the candidate is skipped, fails to parse or
is not an exact hit. -/
def tryExact (net : Net) (apiKey : String) (cand : String) (log : Log) :
    Option (Option String × Option String × Option String) × Log :=
  if (alnumOf cand.data).length < 2 then (none, log)
  else
    let (res, log') := getOmdbByTitle net cand apiKey log
    if res.success then (some (res.rTitle, res.rYear, res.rImdbID), log') else (none, log')

/-- `re.match(r'^\s*(DRV|CINFO|TINFO)\b', query, re.IGNORECASE)` on the
lowercased query. -/
def drvLinePfx (t : List Char) : Bool :=
  let t1 := t.dropWhile isWs
  ["drv".data, "cinfo".data, "tinfo".data].any (fun w =>
    w.isPrefixOf t1 &&
    (match t1.get? w.length with
     | some c => !isWordC c
     | none => true))

/-- The csv-like field list of step 1 of the resolver (`if f` filters the
raw fields, then `str(f).strip().strip('"')`). -/
def csvStageFields (query : String) : List String :=
  (csvFields query.data).filterMap (fun f =>
    if f ≠ [] then some (⟨stripSet (fun c => c = '"') (trimWs f)⟩ : String) else none)

def undToSpace (c : Char) : Char := if c = '_' then ' ' else c

/-- Step 1 loop of the resolver: exact lookups for each csv field, raw and
underscore-normalised, deduplicating attempts case-insensitively. -/
def csvLoop (net : Net) (apiKey : String) (tried : List String) :
    List String → Log → Option RRes × Log
  | [], log => (none, log)
  | f :: fs, log =>
    if f = "" || tried.contains (pyLower f) then csvLoop net apiKey tried fs log
    else
      let tried1 := tried ++ [pyLower f]
      if drvTagFull (lowerL f.data) then csvLoop net apiKey tried1 fs log
      else if isDriveLetterField f.data then csvLoop net apiKey tried1 fs log
      else
        match tryExact net apiKey f log with
        | (some r, log') => (some (r.1, r.2.1, r.2.2, 1), log')
        | (none, log') =>
          let norm : String := ⟨trimWs (f.data.map undToSpace)⟩
          if tried1.contains (pyLower norm) then csvLoop net apiKey tried1 fs log'
          else
            let tried2 := tried1 ++ [pyLower norm]
            match tryExact net apiKey norm log' with
            | (some r, log'') => (some (r.1, r.2.1, r.2.2, 1), log'')
            | (none, log'') => csvLoop net apiKey tried2 fs log''

/-- Step 2 of the resolver: underscore variants of the whole query. -/
def undStage (net : Net) (apiKey : String) (query : String) (log : Log) :
    Option RRes × Log :=
  if query.data.contains '_' then
    let candRaw : String := ⟨stripSet (fun c => c = '"') (trimWs query.data)⟩
    let candNorm : String := ⟨trimWs (candRaw.data.map undToSpace)⟩
    match tryExact net apiKey candRaw log with
    | (some r, log') => (some (r.1, r.2.1, r.2.2, 1), log')
    | (none, log') =>
      match tryExact net apiKey candNorm log' with
      | (some r, log'') => (some (r.1, r.2.1, r.2.2, 1), log'')
      | (none, log'') => (none, log'')
  else (none, log)

/-- Python `range(a, b - 1, -1)`: `a` down to `b` inclusive. -/
def rangeDesc (a b : Nat) : List Nat :=
  if a < b then [] else (List.range (a - b + 1)).map (fun k => a - k)

/-- The whitespace-stripped query of the broadened search
(`re.sub(r'\s+', '', query)`). -/
def wsStripped (query : String) : List Char := query.data.filter (fun c => !isWs c)

/-- The terms of the progressive prefix searches: lengths from
`max(4, L)` down to `max(3, L - 6)` over the whitespace-stripped query,
guarded by `prefix and len(prefix) >= 4`. -/
def prefixSearchTerms (query : String) : List String :=
  let cq := wsStripped query
  (rangeDesc (max 4 cq.length) (max 3 (cq.length - 6))).filterMap (fun l =>
    let p := cq.take l
    if p ≠ [] && 4 ≤ p.length then some (⟨p⟩ : String) else none)

/-- The token searches: the first three `\w+` tokens of length at least 4. -/
def tokenSearchTerms (query : String) : List String :=
  (((wordRuns query.data).filter (fun t => 4 ≤ t.length)).take 3).map
    (fun t => (⟨t⟩ : String))

/-- All search terms of the broadened-search step, in issue order. -/
def broadenedTerms (query : String) : List String :=
  query :: prefixSearchTerms query ++ tokenSearchTerms query

/-- `run_search_and_collect`, folded over a term list. -/
def runSearches (net : Net) (apiKey : String) (terms : List String)
    (st : List SearchItem × Log) : List SearchItem × Log :=
  terms.foldl (fun st term =>
    let r := safeUrlOf (searchOmdb net term apiKey) st.2
    if r.1.success then (st.1 ++ r.1.rSearch, r.2.2) else (st.1, r.2.2)) st

/-- The dedup key: `c.get("imdbID") or f"{title}|{year}"`. -/
def dedupKey (c : SearchItem) : String :=
  match c.sImdbID with
  | some iid => if iid ≠ "" then iid else (c.sTitle.getD "") ++ "|" ++ (c.sYear.getD "")
  | none => (c.sTitle.getD "") ++ "|" ++ (c.sYear.getD "")

def dedupPool (cands : List SearchItem) : List (String × SearchItem) :=
  cands.foldl (fun m c =>
    let k := dedupKey c
    if m.any (fun p => p.1 = k) then m else m ++ [(k, c)]) []

/-- Python string `<` (lexicographic by code point). -/
def strLtL : List Char → List Char → Bool
  | [], [] => false
  | [], _ :: _ => true
  | _ :: _, [] => false
  | a :: as, b :: bs => if a = b then strLtL as bs else a < b

/-- `sorted(uniq.items())`: ascending by key (keys are distinct, so the
item compare never reaches the values). -/
def insertKeyAsc (x : String × SearchItem) :
    List (String × SearchItem) → List (String × SearchItem)
  | [] => [x]
  | y :: ys => if strLtL x.1.data y.1.data then x :: y :: ys else y :: insertKeyAsc x ys

def sortByKeyAsc (l : List (String × SearchItem)) : List (String × SearchItem) :=
  l.foldr insertKeyAsc []

/-- The best-candidate fold: `(imdbID?, score, (title, year)?)` with the
deterministic longer-title tie-break. -/
def bestFold (query : String) (pool : List (String × SearchItem)) :
    Option String × ℚ × Option (String × String) :=
  pool.foldl (fun b kv =>
    let title := kv.2.sTitle.getD ""
    let year := kv.2.sYear.getD ""
    let sc := candScore query title
    let prevLen := match b.2.2 with
      | some ty => ty.1.length
      | none => 0
    if sc > b.2.1 || (sc = b.2.1 && title.length > prevLen) then
      (some kv.1, sc, some (title, year))
    else b) (none, 0, none)

def lookupPool (pool : List (String × SearchItem)) (k : String) : Option SearchItem :=
  (pool.find? (fun p => p.1 = k)).map (fun p => p.2)

/-- Truthiness of `best[0]` (a non-`None`, nonempty id string). -/
def idTruthy : Option String → Bool
  | some i => i ≠ ""
  | none => false

/-- Steps 3-9 of the resolver: one more exact lookup, broadened search,
dedup, scoring, thresholding, detail fetch. -/
def resolveTail (net : Net) (query apiKey : String) (threshold : ℚ)
    (log2 : Log) : RRes × Log :=
  let ex := safeUrlOf (getOmdbByTitle net query apiKey) log2
  if ex.1.success then ((ex.1.rTitle, ex.1.rYear, ex.1.rImdbID, 1), ex.2.2)
  else
    let st := runSearches net apiKey (broadenedTerms query) ([], ex.2.2)
    let pool := dedupPool st.1
    if pool = [] then (absentRes, st.2)
    else
      let best := bestFold query (sortByKeyAsc pool)
      if idTruthy best.1 && best.2.1 ≥ threshold then
        let imdbId := best.1.getD ""
        if imdbId.data.contains '|' && !("tt".data.isPrefixOf imdbId.data) then
          match lookupPool pool imdbId with
          | some meta => ((meta.sTitle, meta.sYear, none, best.2.1), st.2)
          | none => ((none, none, none, best.2.1), st.2)
        else
          let de := safeUrlOf (getOmdbById net imdbId apiKey) st.2
          if de.1.success then
            ((de.1.rTitle, de.1.rYear, de.1.rImdbID, best.2.1), de.2.2)
          else
            match lookupPool pool imdbId with
            | some meta => ((meta.sTitle, meta.sYear, meta.sImdbID, best.2.1), de.2.2)
            | none => ((none, none, none, best.2.1), de.2.2)
      else if idTruthy best.1 && best.2.1 ≥ SUGGEST_THRESHOLD then
        let imdbId := best.1.getD ""
        if "tt".data.isPrefixOf imdbId.data then
          let de := safeUrlOf (getOmdbById net imdbId apiKey) st.2
          if de.1.success then
            ((de.1.rTitle, de.1.rYear, de.1.rImdbID, best.2.1), de.2.2)
          else
            match lookupPool pool imdbId with
            | some meta => ((meta.sTitle, meta.sYear, meta.sImdbID, best.2.1), de.2.2)
            | none => ((none, none, none, best.2.1), de.2.2)
        else
          match lookupPool pool imdbId with
          | some meta => ((meta.sTitle, meta.sYear, meta.sImdbID, best.2.1), st.2)
          | none => ((none, none, none, best.2.1), st.2)
      else (absentRes, st.2)

/-- Embedding of `resolve_title_via_omdb`.  Returns the result 4-tuple and
the physical-attempt log. -/
def resolve_title_via_omdb (net : Net) (query apiKey : String)
    (interactive : Bool) (threshold : ℚ) : RRes × Log :=
  if query = "" || apiKey = "" then (absentRes, []) else
  let log0 : Log := []
  let step1 :=
    if query.data.contains ',' || query.data.contains '"' ||
        drvLinePfx (lowerL query.data) then
      csvLoop net apiKey [] (csvStageFields query) log0
    else (none, log0)
  match step1 with
  | (some r, log) => (r, log)
  | (none, log1) =>
    match undStage net apiKey query log1 with
    | (some r, log) => (r, log)
    | (none, log2) => resolveTail net query apiKey threshold log2

/-! ## Concrete service models used by the claim instances -/

/-- The service of the spec's fuzzy example: no exact hit; every search
returns the hits `{"Arma", 2017}` and `{"Armageddon", 1998}`. -/
def fuzzyNet : Net := fun r _ =>
  match r with
  | Req.searchReq _ =>
    some ⟨true, none, none, none,
      [⟨some "Arma", some "2017", none⟩, ⟨some "Armageddon", some "1998", none⟩]⟩
  | _ => some emptyResp

/-- A transiently failing service: the search for `"ARMAGEDN"` raises on
its first three physical attempts and would succeed from the fourth on;
everything else succeeds with an empty payload. -/
def flakyNet : Net := fun r k =>
  match r with
  | Req.searchReq t =>
    if t = "ARMAGEDN" then
      if k ≤ 2 then none
      else some ⟨true, none, none, none,
        [⟨some "Armageddon", some "1998", some "tt0120591"⟩]⟩
    else some emptyResp
  | _ => some emptyResp

/-- A service whose only search hit is a poor match (`"Qqq"`). -/
def poorNet : Net := fun r _ =>
  match r with
  | Req.searchReq _ =>
    some ⟨true, none, none, none, [⟨some "Qqq", some "2000", none⟩]⟩
  | _ => some emptyResp

/-- A service that answers every request with the failure payload. -/
def allEmptyNet : Net := fun _ _ => some emptyResp

/-- An always-raising action, for exercising the retry wrapper. -/
def alwaysRaise : Log → Option Resp × Log := fun l => (none, l ++ [Req.searchReq "X"])

/-- An action that raises on its first physical attempt and succeeds on
the second, for exercising the retry wrapper. -/
def failOnceNet : Net := fun _ k =>
  if k = 0 then none else some ⟨true, some "T", some "Y", some "tt1", []⟩

/-- The spec's description of the broadened prefix searches, written from
its words for comparison with the code: prefixes of the alnum-stripped
query, shrinking from its full length down to exactly 3 fewer, minimum
prefix length 4. -/
def specBroadenedPrefixes (query : String) : List String :=
  let cq := alnumOf query.data
  (rangeDesc cq.length (cq.length - 3)).filterMap (fun l =>
    let p := cq.take l
    if 4 ≤ p.length then some (⟨p⟩ : String) else none)

/-- The search terms of a request log. -/
def searchTermsOf (log : Log) : List String :=
  log.filterMap (fun r =>
    match r with
    | Req.searchReq t => some t
    | _ => none)

/-! ## Supporting lemmas -/

theorem toNat_ofNat_small (v : Nat) (hv : v < 55296) : (Char.ofNat v).toNat = v := by
  simp [Char.ofNat, Nat.isValidChar, hv, Char.ofNatAux, Char.toNat, UInt32.toNat,
    BitVec.toNat_ofNatLt]

theorem alnum_ne_char {c : Char} (h : isAlnumC c = true) {d : Char}
    (hd : isAlnumC d = false) : c ≠ d := by
  rintro rfl
  rw [h] at hd
  exact absurd hd (by decide)

theorem alnum_not_ws {c : Char} (h : isAlnumC c = true) : isWs c = false := by
  cases hw : isWs c
  · rfl
  · exfalso
    simp only [isWs, Bool.or_eq_true, decide_eq_true_eq] at hw
    rcases hw with ((((rfl | rfl) | rfl) | rfl) | rfl) | rfl <;>
      exact absurd h (by decide)

theorem alnum_word {c : Char} (h : isAlnumC c = true) : isWordC c = true := by
  simp [isWordC, h]

theorem lowerC_alnum {c : Char} (h : isAlnumC c = true) :
    isAlnumC (lowerC c) = true := by
  unfold lowerC
  split
  · next hu =>
    simp only [isUpperC, Bool.and_eq_true, decide_eq_true_eq] at hu
    have h1 : 65 ≤ c.toNat := hu.1
    have h2 : c.toNat ≤ 90 := hu.2
    have ht : (Char.ofNat (c.toNat + 32)).toNat = c.toNat + 32 :=
      toNat_ofNat_small _ (by omega)
    have pa : (97 : Nat) ≤ (Char.ofNat (c.toNat + 32)).toNat := by omega
    have pb : (Char.ofNat (c.toNat + 32)).toNat ≤ 122 := by omega
    have pa' : 'a' ≤ Char.ofNat (c.toNat + 32) := pa
    have pb' : Char.ofNat (c.toNat + 32) ≤ 'z' := pb
    simp [isAlnumC, isAlphaC, isLowerC, pa', pb']
  · exact h

theorem dropWhile_eq_self_of {p : Char → Bool} {l : List Char}
    (h : ∀ c ∈ l, p c = false) : l.dropWhile p = l := by
  cases l with
  | nil => rfl
  | cons c cs =>
    rw [List.dropWhile_cons, if_neg]
    simp [h c (List.mem_cons_self c cs)]

theorem stripSet_eq_self {p : Char → Bool} {l : List Char}
    (h : ∀ c ∈ l, p c = false) : stripSet p l = l := by
  unfold stripSet dropEndWhile
  rw [dropWhile_eq_self_of h, dropWhile_eq_self_of (fun c hc =>
    h c (List.mem_reverse.mp hc)), List.reverse_reverse]

theorem map_eq_self_of {f : Char → Char} {l : List Char}
    (h : ∀ c ∈ l, f c = c) : l.map f = l := by
  induction l with
  | nil => rfl
  | cons c cs ih =>
    rw [List.map_cons, h c (List.mem_cons_self c cs), ih
      (fun x hx => h x (List.mem_cons_of_mem c hx))]

theorem stripTags_eq_self {l : List Char} (h : ∀ c ∈ l, c ≠ '<') :
    stripTagsAux none l = l := by
  induction l with
  | nil => rfl
  | cons c cs ih =>
    show (if c = '<' then _ else c :: stripTagsAux none cs) = c :: cs
    rw [if_neg (h c (List.mem_cons_self c cs)),
      ih (fun x hx => h x (List.mem_cons_of_mem c hx))]

theorem unescapeFuel_eq_self {l : List Char} (h : ∀ c ∈ l, c ≠ '&') :
    ∀ n, unescapeFuel n l = l := by
  induction l with
  | nil => intro n; cases n <;> rfl
  | cons c cs ih =>
    intro n
    cases n with
    | zero => rfl
    | succ n =>
      show (if c = '&' then _ else c :: unescapeFuel n cs) = c :: cs
      rw [if_neg (h c (List.mem_cons_self c cs)),
        ih (fun x hx => h x (List.mem_cons_of_mem c hx)) n]

theorem dotUndAux_eq_self {l : List Char} (h : ∀ c ∈ l, c ≠ '.' ∧ c ≠ '_') :
    ∀ flag, dotUndAux flag l = l := by
  induction l with
  | nil => intro flag; rfl
  | cons c cs ih =>
    intro flag
    show (if c = '.' || c = '_' then _ else c :: dotUndAux false cs) = c :: cs
    have hc := h c (List.mem_cons_self c cs)
    rw [if_neg (by simp [hc.1, hc.2]),
      ih (fun x hx => h x (List.mem_cons_of_mem c hx)) false]

theorem collapseWsAux_eq_self {l : List Char} (h : ∀ c ∈ l, isWs c = false) :
    ∀ flag, collapseWsAux flag l = l := by
  induction l with
  | nil => intro flag; rfl
  | cons c cs ih =>
    intro flag
    show (if isWs c then _ else c :: collapseWsAux false cs) = c :: cs
    rw [if_neg (by simp [h c (List.mem_cons_self c cs)]),
      ih (fun x hx => h x (List.mem_cons_of_mem c hx)) false]

theorem punctRunsAux_eq_self {l : List Char} (h : ∀ c ∈ l, c ≠ '_' ∧ c ≠ '-') :
    punctRunsAux [] l = l := by
  induction l with
  | nil => rfl
  | cons c cs ih =>
    show (if c = '_' || c = '-' then _
          else punctRunFlush [] ++ c :: punctRunsAux [] cs) = c :: cs
    have hc := h c (List.mem_cons_self c cs)
    rw [if_neg (by simp [hc.1, hc.2])]
    show c :: punctRunsAux [] cs = c :: cs
    rw [ih (fun x hx => h x (List.mem_cons_of_mem c hx))]

theorem subRunsAux_word {p : List Char → Bool} {repl : List Char} :
    ∀ (m cur : List Char), m.all isWordC = true → cur.reverse ++ m ≠ [] →
    subRunsAux p repl cur m =
      (if p (cur.reverse ++ m) then repl else cur.reverse ++ m) := by
  intro m
  induction m with
  | nil =>
    intro cur _ hne
    show (if cur = [] then [] else if p cur.reverse then repl else cur.reverse) = _
    have hcur : cur ≠ [] := by
      intro hc
      rw [hc] at hne
      exact hne rfl
    rw [if_neg hcur, List.append_nil]
  | cons c cs ih =>
    intro cur hall hne
    rw [List.all_cons, Bool.and_eq_true] at hall
    show (if isWordC c then subRunsAux p repl (c :: cur) cs else _) = _
    rw [if_pos hall.1, ih (c :: cur) hall.2 (by simp)]
    have hre : (c :: cur).reverse ++ cs = cur.reverse ++ c :: cs := by
      simp
    rw [hre]

theorem runsOfAux_all {p : Char → Bool} :
    ∀ (m cur : List Char), m.all p = true → cur.reverse ++ m ≠ [] →
    runsOfAux p cur m = [cur.reverse ++ m] := by
  intro m
  induction m with
  | nil =>
    intro cur _ hne
    show (if cur = [] then [] else [cur.reverse]) = _
    have hcur : cur ≠ [] := by
      intro hc
      rw [hc] at hne
      exact hne rfl
    rw [if_neg hcur, List.append_nil]
  | cons c cs ih =>
    intro cur hall hne
    rw [List.all_cons, Bool.and_eq_true] at hall
    show (if p c then runsOfAux p (c :: cur) cs else _) = _
    rw [if_pos hall.1, ih (c :: cur) hall.2 (by simp)]
    simp

theorem isPrefixOf_mem : ∀ (w t : List Char), w.isPrefixOf t = true →
    ∀ c ∈ w, c ∈ t := by
  intro w
  induction w with
  | nil => intro t _ c hc; exact absurd hc (List.not_mem_nil c)
  | cons x xs ih =>
    intro t hpre c hc
    cases t with
    | nil => simp [List.isPrefixOf] at hpre
    | cons y ys =>
      rw [List.isPrefixOf_cons₂] at hpre
      rw [Bool.and_eq_true, beq_iff_eq] at hpre
      rcases List.mem_cons.mp hc with rfl | hc2
      · rw [hpre.1]
        exact List.mem_cons_self y ys
      · exact List.mem_cons_of_mem y (ih ys hpre.2 c hc2)

theorem isSubstr_mem {w t : List Char} (h : isSubstrL w t = true) :
    ∀ c ∈ w, c ∈ t := by
  intro c hc
  unfold isSubstrL at h
  rcases List.any_eq_true.mp h with ⟨i, _, hpre⟩
  exact List.drop_subset i t (isPrefixOf_mem w (t.drop i) hpre c hc)

theorem endsWith_mem {suf l : List Char} (h : endsWithL suf l = true) :
    ∀ c ∈ suf, c ∈ l := by
  intro c hc
  unfold endsWithL at h
  have := isPrefixOf_mem _ _ h c (List.mem_reverse.mpr hc)
  exact List.mem_reverse.mp this

theorem dropEndWhile_eq_self_of {p : Char → Bool} {l : List Char}
    (h : ∀ c ∈ l, p c = false) : dropEndWhile p l = l := by
  unfold dropEndWhile
  rw [dropWhile_eq_self_of (fun c hc => h c (List.mem_reverse.mp hc)),
    List.reverse_reverse]

theorem getLastD_mem_self : ∀ (l : List Char) (d : Char), l ≠ [] → l.getLastD d ∈ l := by
  intro l
  induction l with
  | nil => intro d h; exact absurd rfl h
  | cons c cs ih =>
    intro d _
    rw [List.getLastD_cons]
    by_cases hcs : cs = []
    · subst hcs
      simp [List.getLastD]
    · exact List.mem_cons_of_mem c (ih c hcs)

theorem not_mem_lowerL {l : List Char} (hch : ∀ c ∈ l, isAlnumC c = true)
    {d : Char} (hd : isAlnumC d = false) : d ∉ lowerL l := by
  intro hmem
  rcases List.mem_map.mp hmem with ⟨c, hc, rfl⟩
  rw [lowerC_alnum (hch c hc)] at hd
  exact absurd hd (by decide)

theorem substr_lower_false {w l : List Char} (hch : ∀ c ∈ l, isAlnumC c = true)
    {d : Char} (hdw : d ∈ w) (hd : isAlnumC d = false) :
    isSubstrL w (lowerL l) = false := by
  cases hsub : isSubstrL w (lowerL l)
  · rfl
  · exact absurd (isSubstr_mem hsub d hdw) (not_mem_lowerL hch hd)

theorem trimWs_alnum {l : List Char} (hch : ∀ c ∈ l, isAlnumC c = true) :
    trimWs l = l :=
  stripSet_eq_self (fun c hc => alnum_not_ws (hch c hc))

theorem collapseWsL_alnum {l : List Char} (hch : ∀ c ∈ l, isAlnumC c = true) :
    collapseWsL l = l :=
  collapseWsAux_eq_self (fun c hc => alnum_not_ws (hch c hc)) false

theorem subWordRuns_alnum {p : List Char → Bool} {repl : List Char}
    {l : List Char} (hch : ∀ c ∈ l, isAlnumC c = true) (hnil : l ≠ []) :
    subWordRuns p repl l = if p l then repl else l := by
  unfold subWordRuns
  rw [subRunsAux_word l [] (List.all_eq_true.mpr (fun c hc => alnum_word (hch c hc)))
    (by simpa using hnil)]
  simp

theorem extDotSub_alnum {l : List Char} (hch : ∀ c ∈ l, isAlnumC c = true) :
    extDotSub l = l := by
  unfold extDotSub
  rw [dropEndWhile_eq_self_of (fun c hc => alnum_not_ws (hch c hc))]
  have hnone : extDotSuffixes.find? (fun suf => endsWithL suf (lowerL l)) = none := by
    rw [List.find?_eq_none]
    intro suf hsuf he
    simp only [extDotSuffixes, List.mem_cons, List.not_mem_nil, or_false] at hsuf
    rcases hsuf with rfl | rfl | rfl | rfl <;>
      exact absurd (endsWith_mem he '.' (by decide)) (not_mem_lowerL hch (by decide))
  simp only []
  rw [hnone]

theorem extWordSub_alnum {l : List Char} (hch : ∀ c ∈ l, isAlnumC c = true) :
    extWordSub l = l := by
  unfold extWordSub
  rw [dropEndWhile_eq_self_of (fun c hc => alnum_not_ws (hch c hc))]
  simp only []
  rcases hfind : extWordSuffixes.find? (fun suf => endsWithL suf (lowerL l)) with _ | suf
  · rfl
  · simp only []
    by_cases hu : l.take (l.length - suf.length) = []
    · rw [if_neg]
      simp [hu]
    · have hlast : isWs ((l.take (l.length - suf.length)).getLastD ' ') = false :=
        alnum_not_ws (hch _ (List.take_subset _ _ (getLastD_mem_self _ ' ' hu)))
      rw [if_neg (by
        intro hcond
        rcases Bool.and_eq_true .. |>.mp hcond with ⟨_, hws⟩
        rw [hlast] at hws
        exact absurd hws (by decide))]

theorem dashSplitFirst_alnum {l : List Char} (hch : ∀ c ∈ l, isAlnumC c = true) :
    dashSplitFirst l = l := by
  unfold dashSplitFirst
  have hnone : (List.range l.length).find? (fun j =>
      l.get? j = some '-' &&
      1 ≤ j && ((l.get? (j - 1)).getD 'x' |> isWs) &&
      ((l.get? (j + 1)).getD 'x' |> isWs)) = none := by
    rw [List.find?_eq_none]
    intro j _ hp
    have h1 : l.get? j = some '-' := by
      rcases Bool.and_eq_true .. |>.mp hp with ⟨hp2, _⟩
      rcases Bool.and_eq_true .. |>.mp hp2 with ⟨hp3, _⟩
      rcases Bool.and_eq_true .. |>.mp hp3 with ⟨hp4, _⟩
      exact of_decide_eq_true hp4
    have hmem : '-' ∈ l := List.get?_mem h1
    exact absurd rfl (alnum_ne_char (hch '-' hmem) (by decide))
  rw [hnone]

theorem punctRunsSub_alnum {l : List Char} (hch : ∀ c ∈ l, isAlnumC c = true) :
    punctRunsSub l = l :=
  punctRunsAux_eq_self (fun c hc =>
    ⟨alnum_ne_char (hch c hc) (by decide), alnum_ne_char (hch c hc) (by decide)⟩)

theorem markupOnlyFull_alnum {l : List Char} (hch : ∀ c ∈ l, isAlnumC c = true)
    (hm : isMarkupRun l = false) : markupOnlyFull l = false := by
  unfold markupOnlyFull
  cases l with
  | nil => rfl
  | cons c cs =>
    have htok : splitWsTokens (c :: cs) = [c :: cs] := by
      unfold splitWsTokens runsOf
      rw [runsOfAux_all (c :: cs) [] (List.all_eq_true.mpr (fun x hx => by
        simp [alnum_not_ws (hch x hx)])) (by simp)]
      simp
    rw [htok]
    simp [hm]

theorem subseqScan_iff_sublist : ∀ (s b : List Char),
    subseqScan s b = true ↔ s.Sublist b := by
  intro s b
  induction b generalizing s with
  | nil =>
    cases s with
    | nil => simp [subseqScan]
    | cons x xs => simp [subseqScan]
  | cons c bs ih =>
    cases s with
    | nil => simp [subseqScan, List.nil_sublist]
    | cons x xs =>
      by_cases hcx : c = x
      · subst hcx
        rw [show subseqScan (c :: xs) (c :: bs) = subseqScan xs bs from by
          simp [subseqScan]]
        rw [ih]
        exact ⟨fun h => h.cons₂ c, fun h => List.cons_sublist_cons.mp h⟩
      · rw [show subseqScan (x :: xs) (c :: bs) = subseqScan (x :: xs) bs from by
          simp [subseqScan, hcx]]
        rw [ih]
        constructor
        · exact fun h => h.cons c
        · intro h
          cases h with
          | cons _ h2 => exact h2
          | cons₂ => exact absurd rfl hcx

theorem csvLoop_conf_one {net : Net} {apiKey : String} :
    ∀ (fs : List String) (tried : List String) (log : Log) (r : RRes) (log2 : Log),
    csvLoop net apiKey tried fs log = (some r, log2) → r.2.2.2 = 1 := by
  intro fs
  induction fs with
  | nil =>
    intro tried log r log2 h
    simp [csvLoop] at h
  | cons f fs ih =>
    intro tried log r log2 h
    rw [csvLoop] at h
    split at h
    · exact ih _ _ _ _ h
    · split at h
      · exact ih _ _ _ _ h
      · split at h
        · exact ih _ _ _ _ h
        · split at h
          · next r' log' heq =>
            simp only [Prod.mk.injEq, Option.some.injEq] at h
            rw [← h.1]
          · next log' heq =>
            simp only [] at h
            split at h
            · exact ih _ _ _ _ h
            · split at h
              · next r2 log'' heq2 =>
                simp only [Prod.mk.injEq, Option.some.injEq] at h
                rw [← h.1]
              · exact ih _ _ _ _ h

theorem undStage_conf_one {net : Net} {apiKey query : String} {log : Log}
    {r : RRes} {log2 : Log}
    (h : undStage net apiKey query log = (some r, log2)) : r.2.2.2 = 1 := by
  unfold undStage at h
  split at h
  · simp only [] at h
    split at h
    · simp only [Prod.mk.injEq, Option.some.injEq] at h
      rw [← h.1]
    · split at h
      · simp only [Prod.mk.injEq, Option.some.injEq] at h
        rw [← h.1]
      · simp at h
  · simp at h

theorem bool_eq_false {b : Bool} (h : ¬ b = true) : b = false := by
  cases b
  · rfl
  · exact absurd rfl h

theorem headD_mem {l : List Char} (h : l ≠ []) (d : Char) : l.headD d ∈ l := by
  cases l with
  | nil => exact absurd rfl h
  | cons c cs => exact List.mem_cons_self c cs

theorem headD_append_left {l m : List Char} (h : l ≠ []) (d : Char) :
    (l ++ m).headD d = l.headD d := by
  cases l with
  | nil => exact absurd rfl h
  | cons c cs => rfl

theorem getLastD_irrel : ∀ {l : List Char}, l ≠ [] → ∀ (d e : Char),
    l.getLastD d = l.getLastD e := by
  intro l h d e
  cases l with
  | nil => exact absurd rfl h
  | cons c cs => rw [List.getLastD_cons, List.getLastD_cons]

theorem headD_reverse : ∀ (l : List Char) (d : Char),
    l.reverse.headD d = l.getLastD d := by
  intro l
  induction l with
  | nil => intro d; rfl
  | cons c cs ih =>
    intro d
    rw [List.reverse_cons, List.getLastD_cons]
    by_cases hcs : cs = []
    · subst hcs
      rfl
    · rw [headD_append_left (by simpa using hcs) d, ih d,
        getLastD_irrel hcs d c]

theorem getLastD_reverse (l : List Char) (d : Char) :
    l.reverse.getLastD d = l.headD d := by
  have := headD_reverse l.reverse d
  rw [List.reverse_reverse] at this
  rw [← this]

theorem mem_dropWhile_sub {p : Char → Bool} :
    ∀ {l : List Char} {c : Char}, c ∈ l.dropWhile p → c ∈ l := by
  intro l
  induction l with
  | nil => intro c hc; exact hc
  | cons d ds ih =>
    intro c hc
    rw [List.dropWhile_cons] at hc
    split at hc
    · exact List.mem_cons_of_mem d (ih hc)
    · exact hc

theorem mem_stripSet_sub {p : Char → Bool} {l : List Char} {c : Char}
    (hc : c ∈ stripSet p l) : c ∈ l := by
  unfold stripSet dropEndWhile at hc
  have h1 := List.mem_reverse.mp hc
  have h2 := mem_dropWhile_sub h1
  have h3 := List.mem_reverse.mp h2
  exact mem_dropWhile_sub h3

theorem dropWhile_headD_false {p : Char → Bool} :
    ∀ {l : List Char}, l.dropWhile p ≠ [] → ∀ d, p ((l.dropWhile p).headD d) = false := by
  intro l
  induction l with
  | nil => intro h; exact absurd rfl h
  | cons c cs ih =>
    intro h d
    rw [List.dropWhile_cons]
    rw [List.dropWhile_cons] at h
    split
    · next hp =>
      rw [if_pos hp] at h
      exact ih h d
    · next hp =>
      exact bool_eq_false hp

theorem dropWhile_eq_self_of_headD {p : Char → Bool} {l : List Char} {d : Char}
    (h : p (l.headD d) = false) : l.dropWhile p = l := by
  cases l with
  | nil => rfl
  | cons c cs =>
    rw [List.dropWhile_cons, if_neg]
    intro hp
    have hc : p c = false := h
    rw [hc] at hp
    exact absurd hp (by decide)

theorem dropWhile_getLastD {p : Char → Bool} :
    ∀ {l : List Char}, l.dropWhile p ≠ [] → ∀ d,
      (l.dropWhile p).getLastD d = l.getLastD d := by
  intro l
  induction l with
  | nil => intro h; exact absurd rfl h
  | cons c cs ih =>
    intro h d
    rw [List.dropWhile_cons]
    rw [List.dropWhile_cons] at h
    split
    · next hp =>
      rw [if_pos hp] at h
      rw [ih h d, List.getLastD_cons]
      have hcs : cs ≠ [] := by
        intro he
        rw [he] at h
        exact h rfl
      exact getLastD_irrel hcs d c
    · rfl

theorem trimWs_eq_self_of {l : List Char} (h1 : isWs (l.headD 'Q') = false)
    (h2 : isWs (l.getLastD 'Q') = false) : trimWs l = l := by
  unfold trimWs stripSet dropEndWhile
  rw [dropWhile_eq_self_of_headD h1]
  rw [dropWhile_eq_self_of_headD (by rw [headD_reverse]; exact h2)]
  exact List.reverse_reverse l

theorem stripSet_headD {p : Char → Bool} {l : List Char}
    (hne : stripSet p l ≠ []) : p ((stripSet p l).headD 'Q') = false := by
  unfold stripSet dropEndWhile at hne ⊢
  have hz : (l.dropWhile p).reverse.dropWhile p ≠ [] := by
    intro he
    rw [he] at hne
    exact hne rfl
  rw [headD_reverse, dropWhile_getLastD hz, getLastD_reverse]
  have hy : l.dropWhile p ≠ [] := by
    intro he
    rw [he] at hz
    exact hz (by rfl)
  exact dropWhile_headD_false hy 'Q'

theorem stripSet_getLastD {p : Char → Bool} {l : List Char}
    (hne : stripSet p l ≠ []) : p ((stripSet p l).getLastD 'Q') = false := by
  unfold stripSet dropEndWhile at hne ⊢
  have hz : (l.dropWhile p).reverse.dropWhile p ≠ [] := by
    intro he
    rw [he] at hne
    exact hne rfl
  rw [getLastD_reverse]
  exact dropWhile_headD_false hz 'Q'

theorem mem_collapseWsAux : ∀ (flag : Bool) (l : List Char) (c : Char),
    c ∈ collapseWsAux flag l → isWs c = true → c = ' ' := by
  intro flag l
  induction l generalizing flag with
  | nil => intro c hc _; exact absurd hc (List.not_mem_nil c)
  | cons d ds ih =>
    intro c hc hw
    rw [show collapseWsAux flag (d :: ds) =
      (if isWs d then (if flag then [] else [' ']) ++ collapseWsAux true ds
       else d :: collapseWsAux false ds) from rfl] at hc
    split at hc
    · rcases List.mem_append.mp hc with hl | hr
      · split at hl
        · exact absurd hl (List.not_mem_nil c)
        · rw [List.mem_singleton] at hl
          exact hl
      · exact ih true c hr hw
    · next hd =>
      rcases List.mem_cons.mp hc with rfl | hc2
      · rw [hw] at hd
        exact absurd rfl hd
      · exact ih false c hc2 hw

/-- The final stage of `cleanL` has no leading or trailing whitespace:
its whitespace was collapsed to single spaces and the trailing strip
removes spaces from both ends. -/
theorem trimWs_finalStage (y : List Char) :
    trimWs (stripSet (fun c => c = ' ' || c = '_' || c = '-')
      (trimWs (collapseWsL y))) =
    stripSet (fun c => c = ' ' || c = '_' || c = '-') (trimWs (collapseWsL y)) := by
  by_cases hx : stripSet (fun c => c = ' ' || c = '_' || c = '-')
      (trimWs (collapseWsL y)) = []
  · rw [hx]
    rfl
  · have hmem : ∀ c ∈ stripSet (fun c => c = ' ' || c = '_' || c = '-')
        (trimWs (collapseWsL y)), isWs c = true → c = ' ' := by
      intro c hc hw
      have h1 := mem_stripSet_sub hc
      have h2 : c ∈ collapseWsL y := mem_stripSet_sub h1
      exact mem_collapseWsAux false y c h2 hw
    apply trimWs_eq_self_of
    · have hP := stripSet_headD hx
      cases hw : isWs ((stripSet (fun c => c = ' ' || c = '_' || c = '-')
          (trimWs (collapseWsL y))).headD 'Q')
      · rfl
      · exfalso
        have hsp := hmem _ (headD_mem hx 'Q') hw
        rw [hsp] at hP
        exact absurd hP (by decide)
    · have hP := stripSet_getLastD hx
      cases hw : isWs ((stripSet (fun c => c = ' ' || c = '_' || c = '-')
          (trimWs (collapseWsL y))).getLastD 'Q')
      · rfl
      · exfalso
        have hsp := hmem _ (getLastD_mem_self _ 'Q' hx) hw
        rw [hsp] at hP
        exact absurd hP (by decide)

/-- The cleaned string equals its own Python `strip()`. -/
theorem cleanL_trimWs (s : List Char) : trimWs (cleanL s) = cleanL s := by
  unfold cleanL
  split
  · rfl
  · simp only []
    split
    · rfl
    · split
      · rfl
      · exact trimWs_finalStage _

theorem cleanL_alnum (l : List Char) (hch : ∀ c ∈ l, isAlnumC c = true) :
    cleanL l = l ∨ cleanL l = [] := by
  by_cases hnil : l = []
  · right
    rw [hnil]
    rfl
  · unfold cleanL
    rw [if_neg hnil]
    simp only []
    rw [trimWs_alnum hch,
      stripSet_eq_self (fun c hc => by
        simp [alnum_ne_char (hch c hc) (show isAlnumC '"' = false by decide)]),
      show stripTags l = l from stripTags_eq_self (fun c hc =>
        alnum_ne_char (hch c hc) (by decide)),
      show unescapeHtml l = l from unescapeFuel_eq_self (fun c hc =>
        alnum_ne_char (hch c hc) (by decide)) l.length,
      show dotUndRuns l = l from dotUndAux_eq_self (fun c hc =>
        ⟨alnum_ne_char (hch c hc) (by decide),
         alnum_ne_char (hch c hc) (by decide)⟩) false,
      map_eq_self_of (fun c hc => by
        rw [if_neg (alnum_ne_char (hch c hc) (show isAlnumC '_' = false by decide))]),
      trimWs_alnum hch,
      subWordRuns_alnum hch hnil]
    by_cases hm : isMarkupRun l = true
    · rw [if_pos hm]
      right
      decide
    · have hm' : isMarkupRun l = false := bool_eq_false hm
      rw [if_neg hm]
      rw [collapseWsL_alnum hch, trimWs_alnum hch]
      rw [if_neg (by
        simp only [Bool.or_eq_true, decide_eq_true_eq]
        push_neg
        refine ⟨⟨hnil, ?_⟩, ?_⟩
        · rw [substr_lower_false hch (show ' ' ∈ "title information".data by decide)
            (by decide)]
          exact Bool.false_ne_true
        · rw [substr_lower_false hch (show ' ' ∈ "source information".data by decide)
            (by decide)]
          exact Bool.false_ne_true)]
      rw [extDotSub_alnum hch, extWordSub_alnum hch, subWordRuns_alnum hch hnil]
      by_cases h1 : isTMarkerRun l = true
      · rw [if_pos h1]
        right
        decide
      · rw [if_neg h1, subWordRuns_alnum hch hnil]
        by_cases h2 : isSERun l = true
        · rw [if_pos h2]
          right
          decide
        · rw [if_neg h2, subWordRuns_alnum hch hnil]
          by_cases h3 : isResolutionRun l = true
          · rw [if_pos h3]
            right
            decide
          · rw [if_neg h3,
              dashSplitFirst_alnum hch, punctRunsSub_alnum hch,
              collapseWsL_alnum hch, trimWs_alnum hch,
              stripSet_eq_self (fun c hc => by
                simp [alnum_ne_char (hch c hc) (show isAlnumC ' ' = false by decide),
                  alnum_ne_char (hch c hc) (show isAlnumC '_' = false by decide),
                  alnum_ne_char (hch c hc) (show isAlnumC '-' = false by decide)]),
              if_neg (by
                rw [markupOnlyFull_alnum hch hm']
                exact Bool.false_ne_true)]
            exact Or.inl rfl

theorem mem_rangeDesc {n a b : Nat} (h : n ∈ rangeDesc a b) : b ≤ n ∧ n ≤ a := by
  unfold rangeDesc at h
  split at h
  · simp at h
  · next hab =>
    rcases List.mem_map.mp h with ⟨k, hk, rfl⟩
    have hk' := List.mem_range.mp hk
    omega

theorem str_eq_empty_of_data {s : String} (h : s.data = []) : s = "" := by
  cases s with
  | mk d => rw [show d = [] from h]

theorem noisy_eq_of_lower_eq {a b : String} (ha : a.data ≠ []) (hb : b.data ≠ [])
    (h : lowerL a.data = lowerL b.data) :
    is_noisy_title a = is_noisy_title b := by
  unfold is_noisy_title
  rw [if_neg ha, if_neg hb, h]

theorem mem_insertScoreDesc {x p : String × Int} :
    ∀ {l : List (String × Int)}, p ∈ insertScoreDesc x l → p = x ∨ p ∈ l
  | [], h => by
      simp only [insertScoreDesc, List.mem_singleton] at h
      exact Or.inl h
  | y :: ys, h => by
      unfold insertScoreDesc at h
      split at h
      · rcases List.mem_cons.mp h with h | h
        · exact Or.inl h
        · exact Or.inr h
      · rcases List.mem_cons.mp h with h | h
        · exact Or.inr (h ▸ List.mem_cons_self y ys)
        · rcases mem_insertScoreDesc h with h | h
          · exact Or.inl h
          · exact Or.inr (List.mem_cons_of_mem y h)

theorem mem_sortScoredDesc {p : String × Int} :
    ∀ {l : List (String × Int)}, p ∈ sortScoredDesc l → p ∈ l
  | [], h => by simp [sortScoredDesc] at h
  | y :: ys, h => by
      unfold sortScoredDesc at h
      rw [List.foldr_cons] at h
      rcases mem_insertScoreDesc h with h | h
      · exact h ▸ List.mem_cons_self y ys
      · exact List.mem_cons_of_mem y (mem_sortScoredDesc h)

theorem addScore_fst_prop {P : String → Prop} {m : List (String × Int)}
    {k : String} {v : Int} (hm : ∀ q ∈ m, P q.1) (hk : P k) :
    ∀ q ∈ addScore m k v, P q.1 := by
  intro q hq
  unfold addScore at hq
  split at hq
  · rcases List.mem_map.mp hq with ⟨r, hr, hrq⟩
    have h1 : q.1 = r.1 := by
      rw [← hrq]
      split
      · rfl
      · rfl
    rw [h1]
    exact hm r hr
  · rcases List.mem_append.mp hq with h | h
    · exact hm q h
    · rw [List.mem_singleton] at h
      rw [h]
      exact hk

theorem scoreStep_fst_prop {m : List (String × Int)} {sv : String × String}
    (hm : ∀ q ∈ m, q.1 ≠ "" ∧ is_noisy_title q.1 = false) :
    ∀ q ∈ scoreStep m sv, q.1 ≠ "" ∧ is_noisy_title q.1 = false := by
  intro q hq
  unfold scoreStep at hq
  simp only [] at hq
  split at hq
  · exact hm q hq
  · next hcond =>
    simp only [Bool.or_eq_true, decide_eq_true_eq, not_or] at hcond
    have hkey : (⟨trimWs (clean_title_string sv.2).data⟩ : String)
        = clean_title_string sv.2 := by
      show (⟨trimWs (cleanL sv.2.data)⟩ : String) = ⟨cleanL sv.2.data⟩
      rw [cleanL_trimWs]
    have hk : (⟨trimWs (clean_title_string sv.2).data⟩ : String) ≠ ""
        ∧ is_noisy_title ⟨trimWs (clean_title_string sv.2).data⟩ = false := by
      rw [hkey]
      exact ⟨hcond.1, bool_eq_false hcond.2⟩
    exact addScore_fst_prop (P := fun s => s ≠ "" ∧ is_noisy_title s = false)
      hm hk q hq

theorem scoreFold_fst_prop :
    ∀ (cs : List (String × String)) (m : List (String × Int)),
    (∀ q ∈ m, q.1 ≠ "" ∧ is_noisy_title q.1 = false) →
    ∀ q ∈ cs.foldl scoreStep m, q.1 ≠ "" ∧ is_noisy_title q.1 = false
  | [], _, hm => hm
  | c :: cs, m, hm => by
      rw [List.foldl_cons]
      exact scoreFold_fst_prop cs _ (scoreStep_fst_prop hm)

theorem scored_fst_prop {cands : List (String × String)} {q : String × Int}
    (hq : q ∈ score_and_prioritise_candidates cands) :
    q.1 ≠ "" ∧ is_noisy_title q.1 = false := by
  unfold score_and_prioritise_candidates at hq
  exact scoreFold_fst_prop cands [] (by intro r hr; simp at hr) q
    (mem_sortScoredDesc hq)

theorem fallbackPool_fst_prop {raw label : String} {parsed : List ParsedTitle}
    {q : String × Int} (hq : q ∈ fallbackPool raw label parsed) :
    q.1 ≠ "" ∧ is_noisy_title q.1 = false := by
  unfold fallbackPool at hq
  exact scored_fst_prop (List.mem_filter.mp hq).1

theorem findSome?_prop {α β : Type} {f : α → Option β} {P : β → Prop}
    (hf : ∀ x r, f x = some r → P r) :
    ∀ (l : List α) (r : β), l.findSome? f = some r → P r
  | [], _, h => by simp [List.findSome?] at h
  | a :: l, r, h => by
      rw [List.findSome?_cons] at h
      cases hfa : f a with
      | none =>
        rw [hfa] at h
        exact findSome?_prop hf l r h
      | some b =>
        rw [hfa] at h
        exact hf a r (hfa.trans h)

theorem pass1Field_prop : ∀ (f : List Char) (r : String),
    pass1Field f = some r → r ≠ "" ∧ is_noisy_title r = false := by
  intro f r h
  unfold pass1Field at h
  split at h
  · exact Option.noConfusion h
  split at h
  · exact Option.noConfusion h
  split at h
  · exact Option.noConfusion h
  split at h
  · simp only [] at h
    split at h
    · next hcond =>
      injection h with h
      subst h
      simp only [Bool.and_eq_true, decide_eq_true_eq, Bool.not_eq_true'] at hcond
      exact hcond
    · exact Option.noConfusion h
  · exact Option.noConfusion h

theorem allCapsHitOf_prop : ∀ (token : List Char) (r : String),
    allCapsHitOf token = some r → r ≠ "" ∧ is_noisy_title r = false := by
  intro token r h
  unfold allCapsHitOf at h
  split at h
  · next hguard =>
    simp only [] at h
    split at h
    · next hcond =>
      simp only [Bool.and_eq_true, decide_eq_true_eq, Bool.not_eq_true'] at hcond
      split at h
      · next hlow =>
        injection h with h
        subst h
        have htok : token ≠ [] := by
          intro hnil
          rw [hnil] at hguard
          simp at hguard
        have hcandne : (clean_title_string ⟨token⟩).data ≠ [] := by
          intro hd
          exact hcond.1 (str_eq_empty_of_data hd)
        refine ⟨?_, ?_⟩
        · intro hempty
          exact htok (congrArg String.data hempty)
        · rw [noisy_eq_of_lower_eq htok hcandne hlow.symm]
          exact hcond.2
      · injection h with h
        subst h
        exact hcond
    · exact Option.noConfusion h
  · exact Option.noConfusion h

theorem pass2Field_prop : ∀ (f : List Char) (r : String),
    pass2Field f = some r → r ≠ "" ∧ is_noisy_title r = false := by
  intro f r h
  unfold pass2Field at h
  split at h
  · exact Option.noConfusion h
  split at h
  · exact Option.noConfusion h
  split at h
  · exact Option.noConfusion h
  split at h
  · exact Option.noConfusion h
  simp only [] at h
  split at h
  · next r' heq =>
    injection h with h
    subst h
    exact allCapsHitOf_prop _ r' heq
  · split at h
    · next hcond =>
      injection h with h
      subst h
      simp only [Bool.and_eq_true, decide_eq_true_eq, Bool.not_eq_true'] at hcond
      exact hcond
    · exact Option.noConfusion h

theorem pick_cinfo_prop (raw : String) :
    pick_cinfo_title raw = "" ∨ is_noisy_title (pick_cinfo_title raw) = false := by
  unfold pick_cinfo_title
  split
  · exact Or.inl rfl
  · simp only []
    split
    · next r heq =>
      exact Or.inr (findSome?_prop pass1Field_prop _ r heq).2
    · split
      · next r heq =>
        exact Or.inr (findSome?_prop pass2Field_prop _ r heq).2
      · exact Or.inl rfl

theorem firstParsedGood_prop : ∀ (l : List ParsedTitle) (r : String),
    firstParsedGood l = some r → r ≠ "" ∧ is_noisy_title r = false
  | [], _, h => Option.noConfusion h
  | t :: ts, r, h => by
      unfold firstParsedGood at h
      simp only [] at h
      split at h
      · next hcond =>
        injection h with h
        subst h
        simp only [Bool.and_eq_true, decide_eq_true_eq, Bool.not_eq_true'] at hcond
        exact hcond
      · exact firstParsedGood_prop ts r h

theorem runsOfAux_append_word {p : Char → Bool} :
    ∀ (w cur rest : List Char), w.all p = true →
    runsOfAux p cur (w ++ rest) = runsOfAux p (w.reverse ++ cur) rest
  | [], cur, rest, _ => by simp
  | c :: w', cur, rest, hall => by
      rw [List.all_cons, Bool.and_eq_true] at hall
      show (if p c then runsOfAux p (c :: cur) (w' ++ rest) else _) = _
      rw [if_pos hall.1, runsOfAux_append_word w' (c :: cur) rest hall.2]
      congr 1
      simp

theorem runsOf_subRunsAux {m : List Char → Bool} :
    ∀ (l cur : List Char), cur.all isWordC = true →
    runsOf isWordC (subRunsAux m [] cur l)
      = (runsOfAux isWordC cur l).filter (fun r => !m r)
  | [], cur, hall => by
      simp only [subRunsAux, runsOfAux]
      by_cases hc : cur = []
      · rw [if_pos hc, if_pos hc]
        rfl
      · rw [if_neg hc, if_neg hc, List.filter_cons]
        by_cases hm : m cur.reverse = true
        · have hfm : (!m cur.reverse) = false := by simp [hm]
          rw [if_pos hm, hfm, if_neg (by decide : ¬ false = true)]
          rfl
        · have hm' := bool_eq_false hm
          have hfm : (!m cur.reverse) = true := by simp [hm']
          rw [if_neg hm, hfm, if_pos rfl]
          show runsOfAux isWordC [] cur.reverse = _
          rw [runsOfAux_all cur.reverse []
            (by
              rw [List.all_eq_true]
              intro x hx
              exact List.all_eq_true.mp hall x (List.mem_reverse.mp hx))
            (by simp [hc])]
          simp
  | c :: cs, cur, hall => by
      simp only [subRunsAux, runsOfAux]
      by_cases hw : isWordC c = true
      · rw [if_pos hw, if_pos hw]
        exact runsOf_subRunsAux cs (c :: cur) (by simp [List.all_cons, hw, hall])
      · rw [if_neg hw, if_neg hw]
        by_cases hc : cur = []
        · rw [if_pos hc, if_pos hc]
          show runsOfAux isWordC [] ([] ++ c :: subRunsAux m [] [] cs) = _
          rw [List.nil_append]
          simp only [runsOfAux]
          rw [if_neg hw, if_pos trivial]
          exact runsOf_subRunsAux cs [] rfl
        · rw [if_neg hc, if_neg hc, List.filter_cons]
          by_cases hm : m cur.reverse = true
          · have hfm : (!m cur.reverse) = false := by simp [hm]
            rw [if_pos hm, hfm, if_neg (by decide : ¬ false = true)]
            show runsOfAux isWordC [] ([] ++ c :: subRunsAux m [] [] cs) = _
            rw [List.nil_append]
            simp only [runsOfAux]
            rw [if_neg hw, if_pos trivial]
            exact runsOf_subRunsAux cs [] rfl
          · have hm' := bool_eq_false hm
            have hfm : (!m cur.reverse) = true := by simp [hm']
            rw [if_neg hm, hfm, if_pos rfl]
            show runsOfAux isWordC [] (cur.reverse ++ c :: subRunsAux m [] [] cs) = _
            rw [runsOfAux_append_word cur.reverse [] _
              (by
                rw [List.all_eq_true]
                intro x hx
                exact List.all_eq_true.mp hall x (List.mem_reverse.mp hx))]
            simp only [runsOfAux]
            rw [if_neg hw,
              if_neg (by simp [hc] : ¬ cur.reverse.reverse ++ [] = [])]
            have hx : (cur.reverse.reverse ++ []).reverse = cur.reverse := by simp
            rw [hx]
            show _ :: runsOf isWordC (subRunsAux m [] [] cs) = _
            rw [runsOf_subRunsAux cs [] rfl]

theorem wordRuns_subWordRuns (m : List Char → Bool) (l : List Char) :
    wordRuns (subWordRuns m [] l) = (wordRuns l).filter (fun r => !m r) :=
  runsOf_subRunsAux l [] rfl

/-! ## Claim theorems -/

/-- C6, counterexample: `clean_title_string` is not idempotent.  A second
pass strips a further trailing extension word: the cleaning of
`"a mkv mkv"` is `"a mkv"`, which a second cleaning shortens to `"a"`. -/
theorem c6_clean_not_idempotent :
    clean_title_string (clean_title_string "a mkv mkv") ≠ clean_title_string "a mkv mkv"
    ∧ clean_title_string "a mkv mkv" = "a mkv"
    ∧ clean_title_string "a mkv" = "a" := by
  refine ⟨?_, ?_, ?_⟩ <;> with_unfolding_all decide

/-- C7, counterexample: the per-title marker is removed wherever it
stands as a standalone word, not only as a single trailing marker — for
`"Rocky t00 Balboa"` the non-trailing `t00` is not kept. -/
theorem c7_marker_not_only_trailing :
    clean_title_string "Rocky t00 Balboa" = "Rocky Balboa"
    ∧ isSubstrL "t00".data (clean_title_string "Rocky t00 Balboa").data = false := by
  refine ⟨?_, ?_⟩ <;> with_unfolding_all decide

/-- C7, amended: the `t`-marker stage of `clean_title_string` (the
substitution of `\\b[tT]\\d{1,3}\\b`) removes every standalone
`t`-plus-1-to-3-digits word wherever it occurs and keeps every other
word untouched, including words with an embedded `t`-plus-digits
sequence: for every input, the word runs of its output are exactly the
non-marker word runs of its input.  End to end, `clean_title_string`
maps `"C9_t00.mkv"` to `"C9"`, `"MyFilm_t01.m2ts"` to `"MyFilm"`, the
leading-marker `"t00 hello"` to `"hello"`, `"x t00 y t012"` to
`"x y"`, and keeps `"at00 t1234"` unchanged. -/
theorem c7_marker_removal :
    (∀ l : List Char, wordRuns (subWordRuns isTMarkerRun [] l)
        = (wordRuns l).filter (fun r => !isTMarkerRun r))
    ∧ clean_title_string "C9_t00.mkv" = "C9"
    ∧ clean_title_string "MyFilm_t01.m2ts" = "MyFilm"
    ∧ clean_title_string "t00 hello" = "hello"
    ∧ clean_title_string "x t00 y t012" = "x y"
    ∧ clean_title_string "at00 t1234" = "at00 t1234" := by
  refine ⟨fun l => wordRuns_subWordRuns isTMarkerRun l, ?_, ?_, ?_, ?_, ?_⟩
    <;> with_unfolding_all decide

/-- C8, counterexample: `"Rugby Night"` — in which `gb` occurs only
inside the word `Rugby`, the word-boundary size-unit search fails, and
every other rule of the classifier fails — is still classified as noisy,
because the size-unit rule is a plain substring test. -/
theorem c8_rugby_night_noisy :
    is_noisy_title "Rugby Night" = true
    ∧ isSubstrL "gb".data (lowerL "Rugby Night".data) = true
    ∧ sizeUnitSearch (lowerL "Rugby Night".data) = false
    ∧ drvTagFull (lowerL "Rugby Night".data) = false
    ∧ timeFull (trimWs (lowerL "Rugby Night".data)) = false
    ∧ numWsFull (trimWs (lowerL "Rugby Night".data)) = false
    ∧ wordBoundedSearch "chapter".data (lowerL "Rugby Night".data) = false
    ∧ chapterListSearch (lowerL "Rugby Night".data) = false
    ∧ numPunctFull (trimWs (lowerL "Rugby Night".data)) = false
    ∧ isSubstrL "chapter".data (lowerL "Rugby Night".data) = false
    ∧ isSubstrL "mb".data (lowerL "Rugby Night".data) = false
    ∧ digitChapterSearch (lowerL "Rugby Night".data) = false
    ∧ extDotSuffixes.any (fun suf => endsWithL suf (dropTrailNl (lowerL "Rugby Night".data))) = false
    ∧ shortCodeTest (lowerL "Rugby Night".data) = false
    ∧ shortAlnumFull (lowerL "Rugby Night".data) = false
    ∧ hwLow (lowerL "Rugby Night".data) = false := by
  refine ⟨?_, ?_, ?_, ?_, ?_, ?_, ?_, ?_, ?_, ?_, ?_, ?_, ?_, ?_, ?_, ?_⟩ <;>
    with_unfolding_all decide

/-- C8, amended: the size-unit rule of `is_noisy_title` is a substring
test — any occurrence of `gb`, `mb` or `chapter` in the lowercased
string, even inside a larger word, classifies it as noisy. -/
theorem c8_substring_size_rule (s : String)
    (h : isSubstrL "gb".data (lowerL s.data) = true ∨
         isSubstrL "mb".data (lowerL s.data) = true ∨
         isSubstrL "chapter".data (lowerL s.data) = true) :
    is_noisy_title s = true := by
  unfold is_noisy_title
  split
  · rfl
  · unfold isNoisyLow
    rcases h with h | h | h <;> simp [h]

theorem c8_substring_size_rule_witness :
    isSubstrL "gb".data (lowerL "Rugby Night".data) = true
    ∧ is_noisy_title "Rugby Night" = true :=
  ⟨by with_unfolding_all decide,
   c8_substring_size_rule "Rugby Night" (Or.inl (by with_unfolding_all decide))⟩

/-- C3: no network call of the resolver is ever retried.  The retry
wrapper itself does retry a raising action with backoff `0.25 * 2 ^
attempt` (third and fourth conjuncts), but the helpers the resolver
passes to it catch every exception and return `{}`, so the wrapper's
retry path is dead: with a service whose `"ARMAGEDN"` search raises on
its first three physical attempts and succeeds afterwards, the resolver
makes exactly three single-attempt calls of that search (full search,
full-length prefix, token search), never retries any of them, and yields
the empty result, where the specified per-call retry (up to 2 retries)
would have recovered the hit on the first call's third attempt. -/
theorem c3_retry_never_happens :
    (resolve_title_via_omdb flakyNet "ARMAGEDN" "FAKE" false (6/10)).1 = absentRes
    ∧ (resolve_title_via_omdb flakyNet "ARMAGEDN" "FAKE" false (6/10)).2.count
        (Req.searchReq "ARMAGEDN") = 3
    ∧ flakyNet (Req.searchReq "ARMAGEDN") 3 ≠ none
    ∧ safeUrl (fun l => netAttempt failOnceNet (Req.searchReq "X") l) 2 (1/4) []
      = (⟨true, some "T", some "Y", some "tt1", []⟩, [1/4],
         [Req.searchReq "X", Req.searchReq "X"])
    ∧ safeUrl alwaysRaise 2 (1/4) []
      = (emptyResp, [1/4 * 2 ^ 0, 1/4 * 2 ^ 1],
         [Req.searchReq "X", Req.searchReq "X", Req.searchReq "X"]) := by
  refine ⟨?_, ?_, ?_, ?_, ?_⟩ <;> with_unfolding_all decide

/-- C9, counterexample: for the query `"AB-CDEFGH"` the code's prefix
searches are taken over the merely whitespace-stripped query (the hyphen
is kept) and shrink to 6 characters fewer (floor 4), so the term
`"AB-C"` is searched — it is not among the prefixes the claim describes
(prefixes of the alnum-stripped query down to exactly 3 fewer). -/
theorem c9_prefix_terms_cex :
    prefixSearchTerms "AB-CDEFGH" ≠ specBroadenedPrefixes "AB-CDEFGH"
    ∧ "AB-C" ∈ prefixSearchTerms "AB-CDEFGH"
    ∧ "AB-C" ∉ specBroadenedPrefixes "AB-CDEFGH"
    ∧ "AB-C" ∈ searchTermsOf
        (resolve_title_via_omdb allEmptyNet "AB-CDEFGH" "FAKE" false (6/10)).2 := by
  refine ⟨?_, ?_, ?_, ?_⟩ <;> with_unfolding_all decide

/-- C9, amended: the progressive prefix searches are over the
whitespace-stripped query, with prefix lengths running from its full
length down to `max 3 (L - 6)` subject to the guard `4 ≤` (so down to 6
characters fewer, floor 4, not 3 fewer); the token searches take the
first 3 word tokens of length at least 4 (duplicates included); the
resolver issues exactly the full-query search followed by these terms. -/
theorem c9_broadened_search_shape :
    (∀ q : String, ∀ s ∈ prefixSearchTerms q,
      ∃ l, s.data = (wsStripped q).take l ∧ 4 ≤ s.data.length ∧
        (wsStripped q).length - 6 ≤ l ∧ l ≤ max 4 (wsStripped q).length)
    ∧ (∀ q : String, tokenSearchTerms q =
        (((wordRuns q.data).filter (fun t => 4 ≤ t.length)).take 3).map
          (fun t => (⟨t⟩ : String)))
    ∧ broadenedTerms "ABCDEFGHIJ" =
        ["ABCDEFGHIJ", "ABCDEFGHIJ", "ABCDEFGHI", "ABCDEFGH", "ABCDEFG",
         "ABCDEF", "ABCDE", "ABCD", "ABCDEFGHIJ"]
    ∧ searchTermsOf (resolve_title_via_omdb allEmptyNet "ABCDEFGHIJ" "FAKE" false (6/10)).2
      = broadenedTerms "ABCDEFGHIJ" := by
  refine ⟨?_, fun q => rfl, by with_unfolding_all decide, by with_unfolding_all decide⟩
  intro q s hs
  unfold prefixSearchTerms at hs
  rcases List.mem_filterMap.mp hs with ⟨l, hl, hsome⟩
  have hb := mem_rangeDesc hl
  refine ⟨l, ?_⟩
  simp only [] at hsome
  split at hsome
  · next hcond =>
    rcases Bool.and_eq_true .. |>.mp hcond with ⟨_, hlen⟩
    have hs' : s = (⟨(wsStripped q).take l⟩ : String) := by
      exact (Option.some.injEq .. |>.mp hsome).symm
    subst hs'
    have hdata : (String.mk ((wsStripped q).take l)).data = (wsStripped q).take l := rfl
    refine ⟨hdata, ?_, ?_, hb.2⟩
    · rw [hdata]
      exact of_decide_eq_true hlen
    · exact le_trans (le_max_right 3 ((wsStripped q).length - 6)) hb.1
  · exact absurd hsome (by simp)

theorem c9_broadened_search_shape_witness :
    "AB-C" ∈ prefixSearchTerms "AB-CDEFGH"
    ∧ ∃ l, ("AB-C" : String).data = (wsStripped "AB-CDEFGH").take l ∧
        4 ≤ ("AB-C" : String).data.length ∧
        (wsStripped "AB-CDEFGH").length - 6 ≤ l ∧
        l ≤ max 4 (wsStripped "AB-CDEFGH").length :=
  ⟨by with_unfolding_all decide,
   c9_broadened_search_shape.1 "AB-CDEFGH" "AB-C" (by with_unfolding_all decide)⟩

/-- C2: every pooled candidate's score is the clamped blend
`0.50·similarity + 0.25·tokenOverlap + 0.10·lengthRatio +
subsequenceBonus`, the `0.25` bonus awarded exactly when the query's
alphanumeric characters appear in order, case-insensitively, among the
title's (for queries with at least one alphanumeric character); on the
spec's example service the resolver returns `("Armageddon", "1998", ·)`
with confidence `143/180 ≥ 0.4`. -/
theorem c2_fuzzy_scoring :
    (∀ q t : String, candScore q t =
      max 0 (min 1 (scoreString q t * (1/2) + tokenOverlapQ q t * (1/4) +
        lengthRatioQ q t * (1/10) + subseqBonusQ q t)))
    ∧ (∀ q t : String, alnumOf q.data ≠ [] →
        (subseqBonusQ q t = 1/4 ↔
          (lowerL (alnumOf q.data)).Sublist (lowerL (alnumOf t.data))))
    ∧ (resolve_title_via_omdb fuzzyNet "ARMAGEDN" "FAKE" false (6/10)).1
      = (some "Armageddon", some "1998", none, 143/180)
    ∧ (2/5 : ℚ) ≤ 143/180 := by
  refine ⟨?_, ?_, by with_unfolding_all decide, by norm_num⟩
  · intro q t
    unfold candScore
    norm_num
  · intro q t hq
    have hsi : (lowerL (alnumOf q.data)).isEmpty = false := by
      rcases h : alnumOf q.data with _ | ⟨c, cs⟩
      · exact absurd h hq
      · simp [lowerL, h]
    unfold subseqBonusQ
    split
    · next h =>
      unfold isSubsequenceQ at h
      simp only [Bool.and_eq_true, Bool.not_eq_true'] at h
      constructor
      · intro _
        exact (subseqScan_iff_sublist _ _).mp h.2
      · intro _
        norm_num
    · next h =>
      unfold isSubsequenceQ at h
      simp only [Bool.and_eq_true, Bool.not_eq_true', not_and] at h
      constructor
      · intro h0
        exact absurd h0 (by norm_num)
      · intro hsub
        exfalso
        rcases hbi : (lowerL (alnumOf t.data)).isEmpty with _ | _
        · exact h ⟨hsi, hbi⟩ ((subseqScan_iff_sublist _ _).mpr hsub)
        · have hbnil : lowerL (alnumOf t.data) = [] := by
            simpa [List.isEmpty_iff] using hbi
          rw [hbnil] at hsub
          have : lowerL (alnumOf q.data) = [] := List.sublist_nil.mp hsub
          rw [this] at hsi
          simp [List.isEmpty] at hsi

theorem c2_fuzzy_scoring_witness :
    alnumOf ("AB" : String).data ≠ []
    ∧ (subseqBonusQ "AB" "AxBy" = 1/4 ↔
        (lowerL (alnumOf ("AB" : String).data)).Sublist
          (lowerL (alnumOf ("AxBy" : String).data))) :=
  ⟨by with_unfolding_all decide,
   c2_fuzzy_scoring.2.1 "AB" "AxBy" (by with_unfolding_all decide)⟩

/-- C5: in the fallback stage (no usable parsed per-title name,
`pick_cinfo_title` empty), once hardware labels are filtered from the
scored pool: an empty pool yields `""`; a single candidate, or a top
score at least 8 above the runner-up, yields the top candidate
automatically; and in non-interactive mode the top candidate is
returned. -/
theorem c5_fallback_policy (raw label : String) (parsed : List ParsedTitle)
    (interactive tty : Bool) (inp : Option String)
    (hp : (if parsed ≠ [] then firstParsedGood (sortBySecondsDesc parsed) else none)
      = none)
    (hc : pick_cinfo_title raw = "") :
    (fallbackPool raw label parsed = [] →
      choose_title raw label parsed interactive tty inp = "")
    ∧ (∀ top : String × Int, fallbackPool raw label parsed = [top] →
        choose_title raw label parsed interactive tty inp = top.1)
    ∧ (∀ top r rest, fallbackPool raw label parsed = top :: r :: rest →
        top.2 ≥ r.2 + 8 →
        choose_title raw label parsed interactive tty inp = top.1)
    ∧ (interactive = false → ∀ top rest,
        fallbackPool raw label parsed = top :: rest →
        choose_title raw label parsed interactive tty inp = top.1) := by
  refine ⟨?_, ?_, ?_, ?_⟩
  · intro hpool
    simp [choose_title, hp, hc, hpool]
  · intro top hpool
    simp [choose_title, hp, hc, hpool]
  · intro top r rest hpool h8
    simp [choose_title, hp, hc, hpool, h8]
  · intro hi top rest hpool
    simp [choose_title, hp, hc, hpool, hi]

/-- C5 instance: only a noisy duration as the sole parsed-title name, a
hardware-like drive label, and no content info yield the empty string. -/
theorem c5_fallback_policy_witness :
    (if ([⟨some "1:32:45", 5400⟩] : List ParsedTitle) ≠ [] then
       firstParsedGood (sortBySecondsDesc [⟨some "1:32:45", 5400⟩]) else none) = none
    ∧ pick_cinfo_title "" = ""
    ∧ fallbackPool "" "WH16NS60" [⟨some "1:32:45", 5400⟩] = []
    ∧ choose_title "" "WH16NS60" [⟨some "1:32:45", 5400⟩] true true none = "" :=
  ⟨by with_unfolding_all decide, by with_unfolding_all decide,
   by with_unfolding_all decide,
   (c5_fallback_policy "" "WH16NS60" [⟨some "1:32:45", 5400⟩] true true none
     (by with_unfolding_all decide) (by with_unfolding_all decide)).1
     (by with_unfolding_all decide)⟩

/-- C10: when the interactive tie-break prompt is shown (ambiguous pool,
interactive mode, attached terminal), the input `0` returns the
empty-string sentinel; an input error, a non-numeric input, or an
out-of-range number falls through to the top-scored candidate; an
in-range number picks that candidate. -/
theorem c10_interactive_zero (raw label : String) (parsed : List ParsedTitle)
    (tty : Bool) (top r : String × Int) (rest : List (String × Int))
    (hp : (if parsed ≠ [] then firstParsedGood (sortBySecondsDesc parsed) else none)
      = none)
    (hc : pick_cinfo_title raw = "")
    (hpool : fallbackPool raw label parsed = top :: r :: rest)
    (hgap : ¬ top.2 ≥ r.2 + 8)
    (ht : tty = true) :
    (∀ inp : String, trimWs inp.data = ['0'] →
      choose_title raw label parsed true tty (some inp) = "")
    ∧ choose_title raw label parsed true tty none = top.1
    ∧ (∀ inp : String, (trimWs inp.data).all isDigitC = false →
        choose_title raw label parsed true tty (some inp) = top.1)
    ∧ (∀ inp : String, (trimWs inp.data).all isDigitC = true →
        trimWs inp.data ≠ [] →
        min 6 (top :: r :: rest).length < natOfDigits (trimWs inp.data) →
        choose_title raw label parsed true tty (some inp) = top.1)
    ∧ (∀ inp : String, (trimWs inp.data).all isDigitC = true →
        trimWs inp.data ≠ [] →
        1 ≤ natOfDigits (trimWs inp.data) →
        natOfDigits (trimWs inp.data) ≤ min 6 (top :: r :: rest).length →
        choose_title raw label parsed true tty (some inp)
          = (((top :: r :: rest).get? (natOfDigits (trimWs inp.data) - 1)).getD top).1) := by
  refine ⟨?_, ?_, ?_, ?_, ?_⟩
  · intro inp hinp
    simp [choose_title, hp, hc, hpool, ht, hgap, hinp, natOfDigits]
    intro h
    exact absurd h (by decide)
  · simp [choose_title, hp, hc, hpool, ht, hgap]
  · intro inp hdig
    simp [choose_title, hp, hc, hpool, ht, hgap, hdig]
  · intro inp hdig hne hgt
    have h0 : natOfDigits (trimWs inp.data) ≠ 0 := by omega
    have h3 : ¬ natOfDigits (trimWs inp.data) ≤ min 6 (top :: r :: rest).length := by
      omega
    simp [choose_title, hp, hc, hpool, ht, hgap, hdig, hne, h0, h3]
    simp only [List.length_cons] at hgt
    intro ha hb hcl
    exfalso
    omega
  · intro inp hdig hne h1 h2
    have h0 : natOfDigits (trimWs inp.data) ≠ 0 := by omega
    simp [choose_title, hp, hc, hpool, ht, hgap, hdig, hne, h0, h1, h2]
    intro h4
    exfalso
    simp only [List.length_cons] at h2
    have h5 := h4 (by omega)
    omega

/-- C10 instance: an ambiguous two-candidate pool, a live terminal, and
the input `"0"`. -/
theorem c10_interactive_zero_witness :
    (if ([] : List ParsedTitle) ≠ [] then firstParsedGood (sortBySecondsDesc []) else none)
      = none
    ∧ pick_cinfo_title "TINFO:0,27,0,\"Go 4\"\nTINFO:1,27,0,\"Ty 7\"" = ""
    ∧ fallbackPool "TINFO:0,27,0,\"Go 4\"\nTINFO:1,27,0,\"Ty 7\"" "" []
      = [("Go 4", 7), ("Ty 7", 7)]
    ∧ ¬ (7 : Int) ≥ 7 + 8
    ∧ choose_title "TINFO:0,27,0,\"Go 4\"\nTINFO:1,27,0,\"Ty 7\"" "" [] true true (some "0")
      = "" :=
  ⟨by with_unfolding_all decide, by with_unfolding_all decide,
   by with_unfolding_all decide, by norm_num,
   (c10_interactive_zero "TINFO:0,27,0,\"Go 4\"\nTINFO:1,27,0,\"Ty 7\"" "" [] true
     ("Go 4", 7) ("Ty 7", 7) [] (by with_unfolding_all decide)
     (by with_unfolding_all decide) (by with_unfolding_all decide)
     (by norm_num) rfl).1 "0" (by with_unfolding_all decide)⟩

/-- C4, amended: for every service, query, api key and threshold at
least the suggestion floor `0.35`, the resolver's result is either
uniformly `(absent, absent, absent, 0.0)` or carries a confidence of at
least `0.35` (exact hits carry `1.0`); an empty query or missing api key
immediately yields the absent result. -/
theorem resolveTail_floor (net : Net) (query apiKey : String) (threshold : ℚ)
    (log2 : Log) (h : SUGGEST_THRESHOLD ≤ threshold) :
    (resolveTail net query apiKey threshold log2).1 = absentRes
    ∨ SUGGEST_THRESHOLD ≤ (resolveTail net query apiKey threshold log2).1.2.2.2 := by
  have h1 : SUGGEST_THRESHOLD ≤ (1 : ℚ) := by
    rw [show SUGGEST_THRESHOLD = 35/100 from rfl]
    norm_num
  unfold resolveTail
  simp only []
  split
  · exact Or.inr h1
  · split
    · exact Or.inl rfl
    · split
      · next hcond =>
        right
        rcases Bool.and_eq_true .. |>.mp hcond with ⟨_, hge'⟩
        have hge := of_decide_eq_true hge'
        have hfloor := le_trans h hge
        split
        · split
          · exact hfloor
          · exact hfloor
        · split
          · exact hfloor
          · split
            · exact hfloor
            · exact hfloor
      · split
        · next hcond =>
          right
          rcases Bool.and_eq_true .. |>.mp hcond with ⟨_, hge'⟩
          have hge := of_decide_eq_true hge'
          split
          · split
            · exact hge
            · split
              · exact hge
              · exact hge
          · split
            · exact hge
            · exact hge
        · exact Or.inl rfl

theorem c4_confidence_floor (net : Net) (query apiKey : String)
    (interactive : Bool) (threshold : ℚ) (h : SUGGEST_THRESHOLD ≤ threshold) :
    ((resolve_title_via_omdb net query apiKey interactive threshold).1 = absentRes
      ∨ SUGGEST_THRESHOLD ≤
          (resolve_title_via_omdb net query apiKey interactive threshold).1.2.2.2)
    ∧ (query = "" ∨ apiKey = "" →
        (resolve_title_via_omdb net query apiKey interactive threshold).1
          = absentRes) := by
  have h1 : SUGGEST_THRESHOLD ≤ (1 : ℚ) := by
    rw [show SUGGEST_THRESHOLD = 35/100 from rfl]
    norm_num
  constructor
  · unfold resolve_title_via_omdb
    split
    · exact Or.inl rfl
    · split
      · next hcsv =>
        simp only []
        split
        · next r log heq =>
          right
          have hone : r.2.2.2 = 1 := csvLoop_conf_one _ _ _ _ _ heq
          simpa [hone] using h1
        · next log1 heq =>
          split
          · next r log heq2 =>
            right
            have hone : r.2.2.2 = 1 := undStage_conf_one heq2
            simpa [hone] using h1
          · next log2 heq2 =>
            exact resolveTail_floor net query apiKey threshold log2 h
      · next hcsv =>
        simp only []
        split
        · next r log heq2 =>
          right
          have hone : r.2.2.2 = 1 := undStage_conf_one heq2
          simpa [hone] using h1
        · next log2 heq2 =>
          exact resolveTail_floor net query apiKey threshold log2 h
  · intro hq
    rcases hq with hq | hq <;>
      simp [resolve_title_via_omdb, hq]

theorem c4_confidence_floor_witness :
    SUGGEST_THRESHOLD ≤ (6/10 : ℚ)
    ∧ ((resolve_title_via_omdb poorNet "Zebra" "FAKE" false (6/10)).1 = absentRes
        ∨ SUGGEST_THRESHOLD ≤
            (resolve_title_via_omdb poorNet "Zebra" "FAKE" false (6/10)).1.2.2.2)
    ∧ (resolve_title_via_omdb poorNet "" "FAKE" false (6/10)).1 = absentRes :=
  ⟨by norm_num [SUGGEST_THRESHOLD],
   (c4_confidence_floor poorNet "Zebra" "FAKE" false (6/10)
     (by norm_num [SUGGEST_THRESHOLD])).1,
   (c4_confidence_floor poorNet "" "FAKE" false (6/10)
     (by norm_num [SUGGEST_THRESHOLD])).2 (Or.inl rfl)⟩

/-- C4, counterexample: the claim quantifies over every threshold, but
for a threshold below the suggestion floor (here `0.05`) the resolver
returns a present title with confidence `0.06 < 0.35`. -/
theorem c4_below_floor_cex :
    SUGGEST_THRESHOLD = 35/100
    ∧ (resolve_title_via_omdb poorNet "Zebra" "FAKE" false (5/100)).1
      = (some "Qqq", some "2000", none, 3/50)
    ∧ (3/50 : ℚ) < 35/100 :=
  ⟨rfl, by with_unfolding_all decide, by norm_num⟩

/-- C6, amended: `clean_title_string` is idempotent on strings made only
of ASCII alphanumeric characters (on such inputs a pass either keeps the
string or empties it, and both outcomes are fixed points). -/
theorem c6_idempotent_on_alphanumeric (s : String)
    (h : s.data.all isAlnumC = true) :
    clean_title_string (clean_title_string s) = clean_title_string s := by
  show (⟨cleanL (clean_title_string s).data⟩ : String) = ⟨cleanL s.data⟩
  show (⟨cleanL (cleanL s.data)⟩ : String) = ⟨cleanL s.data⟩
  rcases cleanL_alnum s.data (fun c hc => List.all_eq_true.mp h c hc) with he | he
  · rw [he, he]
  · rw [he]
    rfl

/-- C6, amended, instance: the all-alphanumeric string `"Movie"`. -/
theorem c6_idempotent_on_alphanumeric_witness :
    ("Movie".data.all isAlnumC = true)
    ∧ clean_title_string (clean_title_string "Movie") = clean_title_string "Movie" :=
  ⟨by with_unfolding_all decide,
   c6_idempotent_on_alphanumeric "Movie" (by with_unfolding_all decide)⟩

/-- C1: for every raw scan text, drive label, parsed-title list,
interactive flag, terminal state and user input, `choose_title` returns
either the empty string or a title that `is_noisy_title` classifies as
not noisy; a cleaned candidate marked noisy is never the chosen title. -/
theorem c1_chosen_title_never_noisy (raw label : String)
    (parsed : List ParsedTitle) (interactive tty : Bool)
    (inp : Option String) :
    choose_title raw label parsed interactive tty inp = "" ∨
    is_noisy_title (choose_title raw label parsed interactive tty inp) = false := by
  unfold choose_title
  split
  · next t heq =>
    split at heq
    · exact Or.inr (firstParsedGood_prop _ t heq).2
    · exact Option.noConfusion heq
  · simp only []
    split
    · exact pick_cinfo_prop raw
    · split
      · exact Or.inl rfl
      · next top rest hpool =>
        have hmem : ∀ q ∈ top :: rest, q.1 ≠ "" ∧ is_noisy_title q.1 = false := by
          intro q hq
          rw [← hpool] at hq
          exact fallbackPool_fst_prop hq
        have htop := (hmem top (List.mem_cons_self _ _)).2
        split
        · exact Or.inr htop
        · split
          · split
            · next inp' =>
              split
              · split
                · exact Or.inl rfl
                · split
                  · rcases hget : (top :: rest).get? (natOfDigits (trimWs inp'.data) - 1)
                      with _ | q
                    · exact Or.inr htop
                    · exact Or.inr (hmem q (List.get?_mem hget)).2
                  · exact Or.inr htop
              · exact Or.inr htop
            · exact Or.inr htop
          · exact Or.inr htop

end MovieLib
